import Mathlib

/-
Verification of the anvil YAML-subset parser (src/src/yaml.c and the store-based
iteration in src/unnamed/part_001) against its natural-language specification.

The development shallowly embeds the parser in three layers:
  1. a token-level embedding of the tree builder of src/src/yaml.c
     (parse_value / parse_map / parse_seq together with the node heap,
     reference counts and the alias table),
  2. a character-level embedding of the number/key lexing path of
     src/src/yaml.c (try_number / try_key),
  3. a chunked-input machine for the streaming primitives of
     src/unnamed/part_001 (refill_buffers / peek_char / eof_reached /
     skip_char and next_token), that iteration's root dispatch in
     parse_yaml, and its string arena chooser get_string_line together
     with z3_str of src/src/libs/z3_string.h.

Machine integers that matter are modelled explicitly (root_mark is a uint16,
kept below 65536 with wrap-around on decrement); C doubles are modelled as
rationals, which is exact for every value exercised here.
-/

namespace Anvil

/-- Node kinds of the tagged union Node (yaml.h NodeKind). -/
inductive NodeKind
  | map | seq | str | num | bool
deriving DecidableEq

/-- Error taxonomy (yaml.h YamlErrorKind). The extra outOfFuel marker is
artificial: it bounds the unrolling of the embedded C loops, which are bounded
by input consumption in the source. -/
inductive YErr
  | tabIndentation | unexpectedToken | wrongSyntax | keyRedefinition
  | undefinedAlias | redefinedAlias | missingValue | missingComma
  | unclosedQuote | numberTooLong | keyTooLong | outOfFuel
deriving DecidableEq

/-- Token kinds (yaml.h TokenKind). -/
inductive TokenKind
  | unknown | key | string | stringLit | number | boolean | comma
  | anchor | alias | openMap | closeMap | openSeq | closeSeq | eofTok
deriving DecidableEq

/-- A lexer token: kind, raw text and length (yaml.h Token; the raw pointer into
the string arena is modelled by the text it points at). -/
structure Token where
  kind : TokenKind
  raw : String
  length : Nat
deriving DecidableEq

/-- The token returned by next_token once the input is exhausted. -/
def eofToken : Token := { kind := .eofTok, raw := "", length := 0 }

/-- Numeric value of a digit run, most significant first. -/
def digitsVal (l : List Char) : Nat :=
  l.foldl (fun a c => a * 10 + (c.toNat - 48)) 0

/-- Combine sign, integer digits, fraction digits and decimal exponent into the
represented rational value. -/
def strtodVal (sgn : Int) (ip fp : List Char) (ex : Int) : Rat :=
  let mant : Int := sgn * ((digitsVal ip * 10 ^ fp.length + digitsVal fp : Nat) : Int)
  let scale : Int := ex - (fp.length : Int)
  if 0 ≤ scale then ((mant * 10 ^ scale.toNat : Int) : Rat)
  else (mant : Rat) / ((10 ^ (- scale).toNat : Nat) : Rat)

/-- Modelled from the C standard library (z3 headers are not under src/): strtod
restricted to the decimal grammar, with the longest-valid-prefix behavior: an
optional sign, then digits, an optional point with digits, an optional exponent
that is taken only when a digit follows the marker; conversion stops at the
first byte that does not fit (the code passes a null endptr, so the stop
position is discarded).  Exact for the integral values exercised here. -/
def strtodModel (s : String) : Rat :=
  let l := s.data
  let sgn : Int := match l with
    | c :: _ => if c = '-' then -1 else 1
    | [] => 1
  let l := match l with
    | c :: r => if c = '-' ∨ c = '+' then r else c :: r
    | [] => []
  let ip := l.takeWhile (fun c : Char => c.isDigit)
  let l := l.dropWhile (fun c : Char => c.isDigit)
  let (fp, l) := match l with
    | c :: r => if c = '.' then (r.takeWhile (fun d : Char => d.isDigit), r.dropWhile (fun d : Char => d.isDigit))
                else ([], c :: r)
    | [] => ([], [])
  if ip = [] ∧ fp = [] then 0
  else
    let ex : Int := match l with
      | c :: r =>
        if c = 'e' ∨ c = 'E' then
          let esgn : Int := match r with
            | d :: _ => if d = '-' then -1 else 1
            | [] => 1
          let r2 := match r with
            | d :: r2 => if d = '-' ∨ d = '+' then r2 else d :: r2
            | [] => []
          let ed := r2.takeWhile (fun d : Char => d.isDigit)
          if ed = [] then 0 else esgn * (digitsVal ed : Int)
        else 0
      | [] => 0
    strtodVal sgn ip fp ex

/-- A node of the document tree (yaml.h Node), with its payload fields; maps are
insertion-ordered lists of key/value-id pairs, sequences are lists of ids. -/
structure NodeData where
  kind : NodeKind
  rcount : Nat := 0
  string : String := ""
  number : Rat := 0
  boolean : Bool := false
  entries : List (String × Nat) := []
  items : List Nat := []
deriving DecidableEq

/-- parse_number (src/src/yaml.c 545-564): build a NODE_NUMBER whose value is
strtod applied to the raw token text.  The C function also assembles a
separator-stripped copy of the text into a scratch buffer ver_value, but that
copy is freed without ever being passed to the conversion, so interior
underscores are NOT removed from what strtod sees. -/
def parse_number (tok : Token) : NodeData :=
  { kind := .num, number := strtodModel tok.raw }

/-- The numeric conversion as the specification (and the in-code comment) word
it: strip interior underscore separators, then convert; kept for comparison
with parse_number. -/
def parse_number_spec (tok : Token) : NodeData :=
  { kind := .num, number := strtodModel (String.mk (tok.raw.data.filter (fun c => c ≠ '_'))) }

/-- The node heap: malloc'd nodes are identified by allocation order, so pointer
identity in the C code is identity of ids here.  Ids are never reused (next only
grows), matching the fact that the source never recycles a freed Node slot
within a parse observation. -/
structure Heap where
  nodes : List (Nat × NodeData) := []
  next : Nat := 0
deriving DecidableEq

/-- First-match association lookup (the way the C code walks entry arrays). -/
def lookupA : List (Nat × NodeData) → Nat → Option NodeData
  | [], _ => none
  | p :: r, i => if p.1 = i then some p.2 else lookupA r i

namespace Heap

/-- Dereference a node pointer. -/
def get (h : Heap) (i : Nat) : Option NodeData :=
  lookupA h.nodes i

/-- Overwrite the node behind a live pointer (a C field store). -/
def set (h : Heap) (i : Nat) (d : NodeData) : Heap :=
  { h with nodes := h.nodes.map (fun p => if p.1 = i then (i, d) else p) }

/-- create_node (src/src/yaml.c 430-466): malloc a fresh node. -/
def alloc (h : Heap) (d : NodeData) : Nat × Heap :=
  (h.next, { nodes := h.nodes ++ [(h.next, d)], next := h.next + 1 })

/-- free on a node header (the pointed-to children are untouched). -/
def remove (h : Heap) (i : Nat) : Heap :=
  { h with nodes := h.nodes.filter (fun p => decide (p.1 ≠ i)) }

/-- rcount++ on a live node. -/
def bump (h : Heap) (i : Nat) : Heap :=
  match h.get i with
  | some d => h.set i { d with rcount := d.rcount + 1 }
  | none => h

/-- Well-formedness: every allocated id is below the allocation counter and ids
are pairwise distinct. -/
def WF (h : Heap) : Prop :=
  (∀ p ∈ h.nodes, p.1 < h.next) ∧ (h.nodes.map Prod.fst).Nodup

theorem lookupA_mem {l : List (Nat × NodeData)} {i : Nat} {d : NodeData}
    (hg : lookupA l i = some d) : (i, d) ∈ l := by
  induction l with
  | nil => simp [lookupA] at hg
  | cons p r ih =>
    unfold lookupA at hg
    by_cases hpi : p.1 = i
    · rw [if_pos hpi] at hg
      injection hg with hg
      have hpd : p = (i, d) := by
        cases p
        simp only at hpi hg
        simp [hpi, hg]
      rw [← hpd]
      exact List.mem_cons_self _ _
    · rw [if_neg hpi] at hg
      exact List.mem_cons_of_mem _ (ih hg)

theorem get_lt_next {h : Heap} {i : Nat} {d : NodeData} (hw : h.WF) (hg : h.get i = some d) :
    i < h.next := by
  have := hw.1 _ (lookupA_mem hg)
  simpa using this

theorem get_set_ne (h : Heap) (i j : Nat) (d : NodeData) (hne : j ≠ i) :
    (h.set i d).get j = h.get j := by
  show lookupA _ j = lookupA h.nodes j
  unfold set
  simp only
  induction h.nodes with
  | nil => rfl
  | cons p r ih =>
    by_cases hpi : p.1 = i
    · simp only [List.map_cons, if_pos hpi, lookupA]
      rw [if_neg (Ne.symm hne), if_neg (by rw [hpi]; exact Ne.symm hne)]
      exact ih
    · simp only [List.map_cons, if_neg hpi, lookupA]
      by_cases hpj : p.1 = j
      · rw [if_pos hpj, if_pos hpj]
      · rw [if_neg hpj, if_neg hpj]
        exact ih

theorem get_set_self (h : Heap) (i : Nat) (d : NodeData) :
    (h.set i d).get i = (h.get i).map (fun _ => d) := by
  show lookupA _ i = (lookupA h.nodes i).map (fun _ => d)
  unfold set
  simp only
  induction h.nodes with
  | nil => rfl
  | cons p r ih =>
    by_cases hpi : p.1 = i
    · simp [List.map_cons, if_pos hpi, lookupA, hpi]
    · simp only [List.map_cons, if_neg hpi, lookupA, if_neg hpi]
      exact ih

theorem get_alloc_old (h : Heap) (d : NodeData) (j : Nat) (hj : j ≠ h.next) :
    (h.alloc d).2.get j = h.get j := by
  show lookupA (h.nodes ++ [(h.next, d)]) j = lookupA h.nodes j
  induction h.nodes with
  | nil => simp [lookupA, Ne.symm hj]
  | cons p r ih =>
    simp only [List.cons_append, lookupA]
    by_cases hpj : p.1 = j
    · rw [if_pos hpj, if_pos hpj]
    · rw [if_neg hpj, if_neg hpj]
      exact ih

theorem lookupA_append_fresh {l : List (Nat × NodeData)} {n : Nat} {d : NodeData}
    (hb : ∀ p ∈ l, p.1 < n) : lookupA (l ++ [(n, d)]) n = some d := by
  induction l with
  | nil => simp [lookupA]
  | cons p r ih =>
    simp only [List.cons_append, lookupA]
    have hpn : p.1 ≠ n := Nat.ne_of_lt (hb p (List.mem_cons_self _ _))
    rw [if_neg hpn]
    exact ih (fun q hq => hb q (List.mem_cons_of_mem _ hq))

theorem get_alloc_self (h : Heap) (d : NodeData) (hw : h.WF) :
    (h.alloc d).2.get h.next = some d := by
  show lookupA (h.nodes ++ [(h.next, d)]) h.next = some d
  exact lookupA_append_fresh hw.1

theorem get_remove_self (h : Heap) (i : Nat) : (h.remove i).get i = none := by
  show lookupA _ i = none
  unfold remove
  simp only
  induction h.nodes with
  | nil => rfl
  | cons p r ih =>
    by_cases hpi : p.1 = i
    · simp only [List.filter_cons, decide_eq_true_eq]
      rw [if_neg (by simp [hpi])]
      exact ih
    · simp only [List.filter_cons]
      rw [if_pos (by simp [hpi])]
      simp only [lookupA]
      rw [if_neg hpi]
      exact ih

theorem get_remove_ne (h : Heap) (i j : Nat) (hne : j ≠ i) :
    (h.remove i).get j = h.get j := by
  show lookupA _ j = lookupA h.nodes j
  unfold remove
  simp only
  induction h.nodes with
  | nil => rfl
  | cons p r ih =>
    by_cases hpi : p.1 = i
    · simp only [List.filter_cons]
      rw [if_neg (by simp [hpi])]
      simp only [lookupA]
      rw [if_neg (by rw [hpi]; exact Ne.symm hne)]
      exact ih
    · simp only [List.filter_cons]
      rw [if_pos (by simp [hpi])]
      simp only [lookupA]
      by_cases hpj : p.1 = j
      · rw [if_pos hpj, if_pos hpj]
      · rw [if_neg hpj, if_neg hpj]
        exact ih

theorem get_bump_ne (h : Heap) (i j : Nat) (hne : j ≠ i) :
    (h.bump i).get j = h.get j := by
  unfold bump
  rcases h.get i with _ | d
  · rfl
  · exact get_set_ne h i j _ hne

theorem get_bump_self (h : Heap) (i : Nat) :
    (h.bump i).get i = (h.get i).map (fun d => { d with rcount := d.rcount + 1 }) := by
  unfold bump
  rcases hg : h.get i with _ | d
  · simp [hg]
  · rw [get_set_self, hg]; rfl

theorem next_set (h : Heap) (i : Nat) (d : NodeData) : (h.set i d).next = h.next := rfl

theorem next_remove (h : Heap) (i : Nat) : (h.remove i).next = h.next := rfl

theorem next_bump (h : Heap) (i : Nat) : (h.bump i).next = h.next := by
  unfold bump
  rcases h.get i with _ | d
  · rfl
  · rfl

theorem next_alloc (h : Heap) (d : NodeData) : (h.alloc d).2.next = h.next + 1 := rfl

theorem WF_set (h : Heap) (i : Nat) (d : NodeData) (hw : h.WF) : (h.set i d).WF := by
  rcases hw with ⟨hb, hn⟩
  constructor
  · intro p hp
    rcases List.mem_map.1 hp with ⟨q, hq, rfl⟩
    by_cases hqi : q.1 = i
    · rw [if_pos hqi]
      simpa [hqi] using hb q hq
    · rw [if_neg hqi]
      exact hb q hq
  · have heq : ((h.set i d).nodes.map Prod.fst) = h.nodes.map Prod.fst := by
      unfold set
      simp only [List.map_map]
      apply List.map_congr_left
      intro p _
      by_cases hpi : p.1 = i
      · simp [hpi]
      · simp [hpi]
    rw [heq]; exact hn

theorem WF_alloc (h : Heap) (d : NodeData) (hw : h.WF) : (h.alloc d).2.WF := by
  rcases hw with ⟨hb, hn⟩
  constructor
  · intro p hp
    simp only [alloc, List.mem_append, List.mem_singleton] at hp
    rcases hp with hp | rfl
    · exact Nat.lt_succ_of_lt (hb p hp)
    · exact Nat.lt_succ_self _
  · simp only [alloc, List.map_append, List.map_cons, List.map_nil]
    rw [List.nodup_append]
    refine ⟨hn, List.nodup_singleton _, ?_⟩
    intro a ha hbmem
    rcases List.mem_map.1 ha with ⟨q, hq, rfl⟩
    simp only [List.mem_singleton] at hbmem
    exact absurd hbmem (Nat.ne_of_lt (hb q hq))

theorem WF_remove (h : Heap) (i : Nat) (hw : h.WF) : (h.remove i).WF := by
  rcases hw with ⟨hb, hn⟩
  constructor
  · intro p hp
    exact hb p (List.mem_of_mem_filter hp)
  · unfold remove
    simp only
    exact (hn.sublist ((List.filter_sublist _).map Prod.fst))

theorem WF_bump (h : Heap) (i : Nat) (hw : h.WF) : (h.bump i).WF := by
  unfold bump
  rcases h.get i with _ | d
  · exact hw
  · exact WF_set h i _ hw

end Heap

/-- One slot of the alias vector (yaml.h YamlAlias).  The anchor branch bumps
the vector length before parsing the anchored value and only then pushes the
real entry, so a slot can be reserved but unwritten; such a slot has a null name
and a null value and is modelled by the pair of nones. -/
structure AliasE where
  name : Option String
  value : Option Nat
deriving DecidableEq

/-- parse_alias (src/src/yaml.c 532-543): scan the alias vector from the front
and return the value of the first entry whose name matches; a reserved slot has
no name and never matches. -/
def parse_alias : List AliasE → String → Option Nat
  | [], _ => none
  | e :: r, nm => if e.name = some nm then e.value else parse_alias r nm

/-- The guard at the top of the anchor branch (src/src/yaml.c 713-724): the
vector is nonempty and its last slot has a null value, meaning another anchor's
value is being parsed right now (prevents stacked anchors). -/
def anchorGuard (al : List AliasE) : Bool :=
  match al.getLast? with
  | some e => e.value.isNone
  | none => false

/-- Parser state (yaml.h YamlParser) at the token interface: the remaining
token stream abstracts the chunked character input (the character-level lexers
are embedded separately), cur_token is the peek_token slot, root_mark the
uint16 nesting counter, plus the alias vector and the node heap. -/
structure PState where
  toks : List Token
  curToken : Token
  rootMark : Nat
  aliases : List AliasE
  heap : Heap
deriving DecidableEq

/-- next_token at the parser interface: produce the next token of the stream,
or the EOF token forever once it is exhausted.  Mirrors the cur_token
bookkeeping of src/src/yaml.c: the NUMBER and BOOLEAN paths of next_token
(lines 415-423) build their token directly and never store it into cur_token,
so a later peek_token yields the previous token instead. -/
def nextTokenP (st : PState) : Token × PState :=
  match st.toks with
  | [] => (eofToken, { st with curToken := eofToken })
  | t :: r =>
    if t.kind = .number ∨ t.kind = .boolean then (t, { st with toks := r })
    else (t, { st with toks := r, curToken := t })

/-- uint16 increment of root_mark. -/
def u16inc (n : Nat) : Nat := (n + 1) % 65536

/-- uint16 decrement of root_mark (wraps at zero as the unsigned field does). -/
def u16dec (n : Nat) : Nat := (n + 65535) % 65536

/-- map_add (src/src/yaml.c 501-516): append one entry to a map node. -/
def map_add (h : Heap) (i : Nat) (k : String) (v : Nat) : Heap :=
  match h.get i with
  | some d => h.set i { d with entries := d.entries ++ [(k, v)] }
  | none => h

/-- sequence_add (src/src/yaml.c 518-530): append one item to a sequence node. -/
def sequence_add (h : Heap) (i : Nat) (v : Nat) : Heap :=
  match h.get i with
  | some d => h.set i { d with items := d.items ++ [v] }
  | none => h

/-- Number of entries of a map node (node->map.size). -/
def mapSize (h : Heap) (i : Nat) : Nat :=
  match h.get i with
  | some d => d.entries.length
  | none => 0

/-- The merge-key consumption block of parse_map (src/src/yaml.c 672-685):
append every entry of the source map, in order, to the destination map; when
the source is shared (rcount > 0) each appended entry's value first has its own
rcount incremented; afterwards a shared source has its rcount decremented,
while an unshared source is freed shallowly (its node and entry array die, the
moved entries do not).  The in-loop interleaving of increments and appends is
modelled by doing all increments first and refetching the destination, which
touches the same fields in the same order per node. -/
def mergeConsume (h : Heap) (dst src : Nat) : Heap :=
  match h.get src with
  | none => h
  | some s =>
    let h1 := if 0 < s.rcount then s.entries.foldl (fun hh e => hh.bump e.2) h else h
    let h2 :=
      match h1.get dst with
      | some d1 => h1.set dst { d1 with entries := d1.entries ++ s.entries }
      | none => h1
    if 0 < s.rcount then
      match h2.get src with
      | some s2 => h2.set src { s2 with rcount := s2.rcount - 1 }
      | none => h2
    else h2.remove src

/-- The merge pre-check (src/src/yaml.c 645-657): skip_all_whitespace peeks the
first byte of the value that follows the merge key and requires an open brace
or an asterisk.  At the token interface that byte is determined by the next
token kind: an open brace lexes to OPEN_MAP and an asterisk prefix to ALIAS,
and conversely.  (The abstraction smooths over a comment standing between the
merge key and its value, which the raw byte peek rejects.) -/
def mergeHeadOk (st : PState) : Bool :=
  match st.toks with
  | t :: _ => t.kind = TokenKind.openMap ∨ t.kind = TokenKind.alias
  | [] => false

/-- Which of the three mutually recursive parse functions of src/src/yaml.c is
running: parse_value, the entry loop of parse_map on a given destination node,
or the item loop of parse_seq on a given sequence node.  The trio is merged
into the single fueled function parseGo (one structural recursion on the fuel);
the named wrappers parseValue / parseMap / parseMapLoop / parseSeq /
parseSeqLoop below restore the source structure definitionally. -/
inductive PMode
  | value
  | mapLoop (dst : Nat)
  | seqLoop (sid : Nat)
deriving DecidableEq

/-- The recursive core of the tree builder of src/src/yaml.c over the token
interface: mode .value is parse_value (lines 709-789), mode .mapLoop dst the
while loop of parse_map (608-706), mode .seqLoop sid the while loop of
parse_seq (569-600).  The fuel argument bounds recursion depth and loop
unrolling; the C code is bounded by input consumption instead. -/
def parseGo : Nat → PMode → PState → Except YErr (Nat × PState)
  | 0, _, _ => .error .outOfFuel
  | fuel + 1, .value, st =>
    let tst := nextTokenP st
    let token := tst.1
    let st0 := tst.2
    match token.kind with
    | .anchor =>
      -- 714-724: reject an anchor while another anchor's value is being parsed
      if anchorGuard st0.aliases then .error .unexpectedToken
      -- 726-735: reject re-binding a known name
      else if (parse_alias st0.aliases token.raw).isSome then .error .redefinedAlias
      else
        -- 737-742: reserve a slot, parse the value, then push the binding
        match parseGo fuel .value { st0 with aliases := st0.aliases ++ [⟨none, none⟩] } with
        | .error e => .error e
        | .ok (v, st2) =>
          .ok (v, { st2 with aliases := st2.aliases.dropLast ++ [⟨some token.raw, some v⟩] })
    | .alias =>
      -- 745-752: look the name up; absent is fatal, otherwise share the node
      match parse_alias st0.aliases token.raw with
      | none => .error .undefinedAlias
      | some v => .ok (v, { st0 with heap := st0.heap.bump v })
    | .string | .stringLit =>
      -- 754-759
      let ah := st0.heap.alloc { kind := .str, string := token.raw }
      .ok (ah.1, { st0 with heap := ah.2 })
    | .number =>
      -- 761-762
      let ah := st0.heap.alloc (parse_number token)
      .ok (ah.1, { st0 with heap := ah.2 })
    | .boolean =>
      -- 764-769: the lexer encodes which literal matched in the token length
      let ah := st0.heap.alloc { kind := .bool, boolean := token.length = 1 }
      .ok (ah.1, { st0 with heap := ah.2 })
    | .openMap =>
      -- 771-773: root_mark++ then parse_map (node creation and entry loop)
      let st1 := { st0 with rootMark := u16inc st0.rootMark }
      let ah := st1.heap.alloc { kind := .map }
      parseGo fuel (.mapLoop ah.1) { st1 with heap := ah.2 }
    | .openSeq =>
      -- 775-776: parse_seq (node creation and item loop)
      let ah := st0.heap.alloc { kind := .seq }
      parseGo fuel (.seqLoop ah.1) { st0 with heap := ah.2 }
    | _ =>
      -- 778-788
      .error .unexpectedToken
  | fuel + 1, .mapLoop dst, st =>
    let tst := nextTokenP st
    let t0 := tst.1
    let st0 := tst.2
    if t0.kind = .closeMap then .ok (dst, { st0 with rootMark := u16dec st0.rootMark })
    else
      -- 613: token = peek_token, the cur_token slot (stale after NUMBER/BOOLEAN)
      let token := st0.curToken
      -- 615-624: comma handling, governed by the nesting counter
      let step : Except YErr (Token × PState) :=
        if token.kind = .comma then
          if st0.rootMark = 0 then .error .unexpectedToken
          else .ok (nextTokenP st0)
        else if 0 < mapSize st0.heap dst ∧ 0 < st0.rootMark then .error .unexpectedToken
        else .ok (token, st0)
      match step with
      | .error e => .error e
      | .ok (token, st1) =>
        -- 626-636: EOF ends the bare root map, fatal inside braces
        if token.kind = .eofTok then
          if st1.rootMark = 0 then .ok (dst, { st1 with rootMark := u16dec st1.rootMark })
          else .error .unexpectedToken
        else if token.kind ≠ .key then .error .unexpectedToken
        -- 643-686: merge key
        else if token.length = 2 ∧ token.raw = "<<" then
          if mergeHeadOk st1 = false then .error .unexpectedToken
          else
            match parseGo fuel .value st1 with
            | .error e => .error e
            | .ok (v, st2) =>
              match st2.heap.get v with
              | none => .error .unexpectedToken
              | some s =>
                if s.kind ≠ .map then .error .unexpectedToken
                else parseGo fuel (.mapLoop dst) { st2 with heap := mergeConsume st2.heap dst v }
        else
          -- 689-690: ordinary entry
          match parseGo fuel .value st1 with
          | .error e => .error e
          | .ok (v, st2) =>
            parseGo fuel (.mapLoop dst) { st2 with heap := map_add st2.heap dst token.raw v }
  | fuel + 1, .seqLoop sid, st =>
    -- 570-573: the immediate close-bracket test peeks the raw byte in C; at
    -- the token interface it peeks the next token kind (the raw peek happens
    -- before any whitespace skipping, so a blank before the bracket takes the
    -- element path in C; no claim rests on that corner)
    let headClose : Bool :=
      match st.toks with
      | t :: _ => t.kind = TokenKind.closeSeq
      | [] => false
    if headClose then
      let tst := nextTokenP st
      .ok (sid, tst.2)
    else
      match parseGo fuel .value st with
      | .error e => .error e
      | .ok (item, st1) =>
        let tst := nextTokenP st1
        let token := tst.1
        let st2 := tst.2
        if token.kind = .eofTok then .error .unexpectedToken
        else if token.kind ≠ .comma ∧ token.kind ≠ .closeSeq then .error .unexpectedToken
        else
          let st3 := { st2 with heap := sequence_add st2.heap sid item }
          if token.kind = .closeSeq then .ok (sid, st3)
          else parseGo fuel (.seqLoop sid) st3

/-- parse_value (src/src/yaml.c 709-789). -/
def parseValue (fuel : Nat) (st : PState) : Except YErr (Nat × PState) :=
  parseGo fuel .value st

/-- The while loop of parse_map (src/src/yaml.c 608-706) building map node
dst; on exit root_mark is decremented (line 705). -/
def parseMapLoop (fuel : Nat) (st : PState) (dst : Nat) : Except YErr (Nat × PState) :=
  parseGo fuel (.mapLoop dst) st

/-- parse_map (src/src/yaml.c 605-707): create the NODE_MAP and run the entry
loop. -/
def parseMap (fuel : Nat) (st : PState) : Except YErr (Nat × PState) :=
  let ah := st.heap.alloc { kind := .map }
  parseMapLoop fuel { st with heap := ah.2 } ah.1

/-- The while loop of parse_seq (src/src/yaml.c 569-600). -/
def parseSeqLoop (fuel : Nat) (st : PState) (sid : Nat) : Except YErr (Nat × PState) :=
  parseGo fuel (.seqLoop sid) st

/-- parse_seq (src/src/yaml.c 566-603): create the NODE_SEQUENCE and run the
item loop. -/
def parseSeq (fuel : Nat) (st : PState) : Except YErr (Nat × PState) :=
  let ah := st.heap.alloc { kind := .seq }
  parseSeqLoop fuel { st with heap := ah.2 } ah.1

/-- parse_yaml (src/src/yaml.c 796-831): the document root is the result of
parse_map run on the initial state (empty heap, empty alias table, nesting
counter zero), after which the input must be exhausted or the parse fails.
(The C end-of-input test reads the chunk state; with the token stream
abstraction it is exhaustion of the stream.) -/
def parseYamlTok (fuel : Nat) (toks : List Token) : Except YErr (Nat × PState) :=
  let st0 : PState :=
    { toks := toks, curToken := { kind := .unknown, raw := "", length := 0 },
      rootMark := 0, aliases := [], heap := {} }
  match parseMap fuel st0 with
  | .error e => .error e
  | .ok (root, st1) =>
    if st1.toks = [] then .ok (root, st1) else .error .unexpectedToken

/-- The entry scan of map_get_node (src/src/yaml.c 839-844): first strcmp
match wins. -/
def mapFindFirst : List (String × Nat) → String → Option Nat
  | [], _ => none
  | e :: r, k => if e.1 = k then some e.2 else mapFindFirst r k

/-- map_get_node (src/src/yaml.c 833-846): a null or non-map node yields null,
otherwise the value of the first entry, in insertion order, whose key compares
equal; null when none matches. -/
def map_get_node (h : Heap) (node : Option Nat) (key : String) : Option Nat :=
  match node with
  | none => none
  | some i =>
    match h.get i with
    | none => none
    | some d =>
      if d.kind ≠ .map then none
      else mapFindFirst d.entries key

/-- Key token, as the lexer produces it for a bare key. -/
def keyTok (s : String) : Token := { kind := .key, raw := s, length := s.length }

/-- Number token with its scanned text. -/
def numTok (s : String) : Token := { kind := .number, raw := s, length := s.length }

/-- Anchor token carrying the anchor name (the ampersand is consumed by the lexer). -/
def anchorTok (s : String) : Token := { kind := .anchor, raw := s, length := s.length }

/-- Alias token carrying the alias name (the asterisk is consumed by the lexer). -/
def aliasTok (s : String) : Token := { kind := .alias, raw := s, length := s.length }

/-- Open-brace token. -/
def openMapTok : Token := { kind := .openMap, raw := "", length := 1 }

/-- Close-brace token. -/
def closeMapTok : Token := { kind := .closeMap, raw := "", length := 1 }

/-- Comma token. -/
def commaTok : Token := { kind := .comma, raw := "", length := 1 }

/-- Open-bracket token. -/
def openSeqTok : Token := { kind := .openSeq, raw := "", length := 1 }

/-- Close-bracket token. -/
def closeSeqTok : Token := { kind := .closeSeq, raw := "", length := 1 }

/-- Observation of a full parse: the node behind id i in the final heap, none
when the parse fails. -/
def runHeapGet (fuel : Nat) (toks : List Token) (i : Nat) : Option NodeData :=
  match parseYamlTok fuel toks with
  | .ok (_, st) => st.heap.get i
  | .error _ => none

/-- Observation of a full parse: the entry list of the root map. -/
def runRootEntries (fuel : Nat) (toks : List Token) : Option (List (String × Nat)) :=
  match parseYamlTok fuel toks with
  | .ok (r, st) =>
    match st.heap.get r with
    | some d => some d.entries
    | none => none
  | .error _ => none

/-- Observation of a full parse: the error it terminates with, if any. -/
def runErr (fuel : Nat) (toks : List Token) : Option YErr :=
  match parseYamlTok fuel toks with
  | .ok _ => none
  | .error e => some e

/-- Observation of a full parse: the final alias table. -/
def runAliases (fuel : Nat) (toks : List Token) : Option (List AliasE) :=
  match parseYamlTok fuel toks with
  | .ok (_, st) => some st.aliases
  | .error _ => none

/-- State invariant threaded through the soundness induction: the heap is
well-formed and root_mark denotes a uint16 value. -/
def Stok (st : PState) : Prop := st.heap.WF ∧ st.rootMark < 65536

/-- A node observation changed only in its reference count (or was absent). -/
def rcOnly (a b : Option NodeData) : Prop :=
  ∀ d, a = some d → ∃ rc, b = some { d with rcount := rc }

theorem rcOnly_refl (a : Option NodeData) : rcOnly a a := by
  intro d hd
  exact ⟨d.rcount, by rw [hd]⟩

theorem rcOnly_of_eq {a b : Option NodeData} (h : a = b) : rcOnly a b := h ▸ rcOnly_refl a

theorem rcOnly_trans {a b c : Option NodeData} (h1 : rcOnly a b) (h2 : rcOnly b c) :
    rcOnly a c := by
  intro d hd
  rcases h1 d hd with ⟨rc1, hb⟩
  rcases h2 _ hb with ⟨rc2, hc⟩
  exact ⟨rc2, hc⟩

theorem rcOnly_bump (h : Heap) (j i : Nat) : rcOnly (h.get i) ((h.bump j).get i) := by
  by_cases hij : i = j
  · subst hij
    rw [Heap.get_bump_self]
    intro d hd
    rw [hd]
    exact ⟨d.rcount + 1, rfl⟩
  · rw [Heap.get_bump_ne h j i hij]
    exact rcOnly_refl _

theorem rcOnly_foldBump (l : List (String × Nat)) (h : Heap) (i : Nat) :
    rcOnly (h.get i) ((l.foldl (fun hh e => hh.bump e.2) h).get i) := by
  induction l generalizing h with
  | nil => exact rcOnly_refl _
  | cons e r ih =>
    exact rcOnly_trans (rcOnly_bump h e.2 i) (ih (h.bump e.2))

theorem foldBump_next (l : List (String × Nat)) (h : Heap) :
    (l.foldl (fun hh e => hh.bump e.2) h).next = h.next := by
  induction l generalizing h with
  | nil => rfl
  | cons e r ih => rw [List.foldl_cons, ih, Heap.next_bump]

theorem foldBump_WF (l : List (String × Nat)) (h : Heap) (hw : h.WF) :
    (l.foldl (fun hh e => hh.bump e.2) h).WF := by
  induction l generalizing h with
  | nil => exact hw
  | cons e r ih => exact ih _ (Heap.WF_bump h e.2 hw)

/-- Everything the soundness induction needs to know about one merge-key
consumption: well-formedness and the allocation counter are preserved, the
destination keeps its identity with its old entries as a prefix, any third
node changes only in its reference count, and the source survives (as an
rcount change) exactly when it was shared. -/
theorem mergeConsume_facts (h : Heap) (dst src : Nat) (s : NodeData)
    (hs : h.get src = some s) (hw : h.WF) (hsafe : 0 < s.rcount ∨ dst ≠ src) :
    (mergeConsume h dst src).WF ∧ (mergeConsume h dst src).next = h.next ∧
    (∀ d, h.get dst = some d →
      ∃ rc ext, (mergeConsume h dst src).get dst =
        some { d with rcount := rc, entries := d.entries ++ ext }) ∧
    (∀ i, i ≠ dst → i ≠ src → rcOnly (h.get i) ((mergeConsume h dst src).get i)) ∧
    (0 < s.rcount → ∀ i, i ≠ dst → rcOnly (h.get i) ((mergeConsume h dst src).get i)) := by
  by_cases hrc : 0 < s.rcount
  · -- shared source: bump the moved children, extend dst, decrement src
    have hmc : mergeConsume h dst src =
        (let h1 := s.entries.foldl (fun hh e => hh.bump e.2) h
         let h2 :=
           match h1.get dst with
           | some d1 => h1.set dst { d1 with entries := d1.entries ++ s.entries }
           | none => h1
         match h2.get src with
         | some s2 => h2.set src { s2 with rcount := s2.rcount - 1 }
         | none => h2) := by
      unfold mergeConsume
      rw [hs]
      simp only [if_pos hrc]
    set h1 := s.entries.foldl (fun hh e => hh.bump e.2) h with hh1
    have h1wf : h1.WF := foldBump_WF _ _ hw
    have h1next : h1.next = h.next := foldBump_next _ _
    have h1rc : ∀ i, rcOnly (h.get i) (h1.get i) := fun i => rcOnly_foldBump _ _ _
    -- the source is still live after the bumps
    rcases h1rc src s hs with ⟨rcs, hs1⟩
    rcases hgd : h1.get dst with _ | d1
    · -- dst is a dangling pointer: it already was before the bumps
      have hdnone : h.get dst = none := by
        rcases hgd2 : h.get dst with _ | d0
        · rfl
        · rcases h1rc dst d0 hgd2 with ⟨rc, hcon⟩
          rw [hgd] at hcon
          cases hcon
      have hmc2 : mergeConsume h dst src = h1.set src { { s with rcount := rcs } with rcount := rcs - 1 } := by
        rw [hmc]
        simp only [hgd, hs1]
      rw [hmc2]
      refine ⟨Heap.WF_set _ _ _ h1wf, by rw [Heap.next_set]; exact h1next, ?_, ?_, ?_⟩
      · intro d hd
        rw [hdnone] at hd; cases hd
      · intro i hidst hisrc
        exact rcOnly_trans (h1rc i) (rcOnly_of_eq (Heap.get_set_ne h1 src i _ hisrc).symm)
      · intro _ i hidst
        refine rcOnly_trans (h1rc i) ?_
        by_cases hisrc : i = src
        · subst hisrc
          rw [Heap.get_set_self, hs1]
          intro d hd
          injection hd with hd
          subst hd
          exact ⟨rcs - 1, rfl⟩
        · exact rcOnly_of_eq (Heap.get_set_ne h1 src i _ hisrc).symm
    · -- dst is live: extend its entries, then decrement the source
      set h2 := h1.set dst { d1 with entries := d1.entries ++ s.entries } with hh2
      have h2wf : h2.WF := Heap.WF_set _ _ _ h1wf
      have h2next : h2.next = h.next := by rw [hh2, Heap.next_set]; exact h1next
      have h2dst : h2.get dst = some { d1 with entries := d1.entries ++ s.entries } := by
        rw [hh2, Heap.get_set_self, hgd]; rfl
      have hs2 : ∃ s2, h2.get src = some s2 := by
        by_cases hds : src = dst
        · subst hds
          exact ⟨_, h2dst⟩
        · exact ⟨_, by rw [hh2, Heap.get_set_ne h1 dst src _ hds, hs1]⟩
      rcases hs2 with ⟨s2, hs2⟩
      have hmc2 : mergeConsume h dst src = h2.set src { s2 with rcount := s2.rcount - 1 } := by
        rw [hmc]
        simp only [hgd, ← hh2, hs2]
      rw [hmc2]
      refine ⟨Heap.WF_set _ _ _ h2wf, by rw [Heap.next_set]; exact h2next, ?_, ?_, ?_⟩
      · -- the destination keeps its old entries as a prefix
        intro d hd
        rcases h1rc dst d hd with ⟨rc1, hd1⟩
        rw [hgd] at hd1
        injection hd1 with hd1
        subst hd1
        by_cases hds : src = dst
        · subst hds
          rw [h2dst] at hs2
          injection hs2 with hs2
          subst hs2
          rw [Heap.get_set_self, h2dst]
          exact ⟨rc1 - 1, s.entries, rfl⟩
        · rw [Heap.get_set_ne h2 src dst _ (fun hcon => hds hcon.symm), h2dst]
          exact ⟨rc1, s.entries, rfl⟩
      · intro i hidst hisrc
        refine rcOnly_trans (h1rc i) (rcOnly_of_eq ?_)
        rw [Heap.get_set_ne _ src i _ hisrc, hh2, Heap.get_set_ne h1 dst i _ hidst]
      · intro _ i hidst
        refine rcOnly_trans (h1rc i) ?_
        by_cases hisrc : i = src
        · subst hisrc
          rw [Heap.get_set_self, hs2]
          have hs2i : h2.get i = h1.get i := by
            rw [hh2, Heap.get_set_ne h1 dst i _ hidst]
          rw [hs2i] at hs2
          intro d hd
          rw [hd] at hs2
          injection hs2 with hs2
          subst hs2
          exact ⟨d.rcount - 1, rfl⟩
        · refine rcOnly_of_eq ?_
          rw [Heap.get_set_ne _ src i _ hisrc, hh2, Heap.get_set_ne h1 dst i _ hidst]
  · -- unshared source: no bumps, extend dst, free the source node
    have hds : dst ≠ src := by
      rcases hsafe with hpos | hne
      · exact absurd hpos hrc
      · exact hne
    have hmc : mergeConsume h dst src =
        (match h.get dst with
         | some d1 => h.set dst { d1 with entries := d1.entries ++ s.entries }
         | none => h).remove src := by
      unfold mergeConsume
      rw [hs]
      simp only [if_neg hrc]
    rcases hgd : h.get dst with _ | d1
    · have hmc2 : mergeConsume h dst src = h.remove src := by
        rw [hmc]
        simp only [hgd]
      rw [hmc2]
      refine ⟨Heap.WF_remove _ _ hw, Heap.next_remove _ _, ?_, ?_, ?_⟩
      · intro d hd
        simp at hd
      · intro i hidst hisrc
        exact rcOnly_of_eq (Heap.get_remove_ne h src i hisrc).symm
      · intro hcon
        exact absurd hcon hrc
    · set h2 := h.set dst { d1 with entries := d1.entries ++ s.entries } with hh2
      have hmc2 : mergeConsume h dst src = h2.remove src := by
        rw [hmc]
        simp only [hgd, ← hh2]
      rw [hmc2]
      refine ⟨Heap.WF_remove _ _ (Heap.WF_set _ _ _ hw), ?_, ?_, ?_, ?_⟩
      · rw [Heap.next_remove, hh2, Heap.next_set]
      · intro d hd
        injection hd with hd
        subst hd
        rw [Heap.get_remove_ne _ src dst hds, hh2, Heap.get_set_self, hgd]
        exact ⟨d1.rcount, s.entries, rfl⟩
      · intro i hidst hisrc
        refine rcOnly_of_eq ?_
        rw [Heap.get_remove_ne _ src i hisrc, hh2, Heap.get_set_ne h dst i _ hidst]
      · intro hcon
        exact absurd hcon hrc

theorem mergeConsume_WF (h : Heap) (dst src : Nat) (hw : h.WF) :
    (mergeConsume h dst src).WF := by
  unfold mergeConsume
  cases hsrc : h.get src with
  | none => exact hw
  | some s =>
    simp only
    have h1wf : ∀ h1 : Heap, h1.WF →
        (match h1.get dst with
         | some d1 => h1.set dst { d1 with entries := d1.entries ++ s.entries }
         | none => h1).WF := by
      intro h1 hw1
      cases h1.get dst with
      | none => exact hw1
      | some d1 => exact Heap.WF_set _ _ _ hw1
    split
    · have h2wf := h1wf _ (foldBump_WF s.entries h hw)
      cases (_ : Heap).get src with
      | none => exact h2wf
      | some s2 => exact Heap.WF_set _ _ _ h2wf
    · exact Heap.WF_remove _ _ (h1wf _ hw)

theorem mergeConsume_next (h : Heap) (dst src : Nat) :
    (mergeConsume h dst src).next = h.next := by
  unfold mergeConsume
  cases hsrc : h.get src with
  | none => rfl
  | some s =>
    simp only
    have h1next : ∀ h1 : Heap, h1.next = h.next →
        (match h1.get dst with
         | some d1 => h1.set dst { d1 with entries := d1.entries ++ s.entries }
         | none => h1).next = h.next := by
      intro h1 hn1
      cases h1.get dst with
      | none => exact hn1
      | some d1 => rw [Heap.next_set]; exact hn1
    split
    · have h2n := h1next _ (foldBump_next s.entries h)
      cases (_ : Heap).get src with
      | none => exact h2n
      | some s2 => rw [Heap.next_set]; exact h2n
    · rw [Heap.next_remove]; exact h1next _ rfl

theorem u16inc_lt (n : Nat) : u16inc n < 65536 := by
  unfold u16inc; omega

theorem u16dec_lt (n : Nat) : u16dec n < 65536 := by
  unfold u16dec; omega

theorem u16dec_inc (n : Nat) (hn : n < 65536) : u16dec (u16inc n) = n := by
  unfold u16inc u16dec; omega

theorem Heap.get_next_none (h : Heap) (hw : h.WF) : h.get h.next = none := by
  cases hg : h.get h.next with
  | none => rfl
  | some d => exact absurd (Heap.get_lt_next hw hg) (Nat.lt_irrefl _)

theorem rcOnly_alloc (h : Heap) (d : NodeData) (hw : h.WF) (i : Nat) :
    rcOnly (h.get i) ((h.alloc d).2.get i) := by
  by_cases hi : i = h.next
  · subst hi
    rw [Heap.get_next_none h hw]
    intro d0 hd0
    cases hd0
  · exact rcOnly_of_eq (Heap.get_alloc_old h d i hi).symm

theorem rcOnly_isSome {a b : Option NodeData} (hr : rcOnly a b) (ha : a.isSome) : b.isSome := by
  rcases Option.isSome_iff_exists.1 ha with ⟨d, hd⟩
  rcases hr d hd with ⟨rc, hb⟩
  rw [hb]; rfl

theorem nextTokenP_head {st : PState} {t : Token} {r : List Token} (h : st.toks = t :: r) :
    (nextTokenP st).1 = t := by
  unfold nextTokenP
  rw [h]
  dsimp only
  split <;> rfl

theorem nextTokenP_heap (st : PState) : (nextTokenP st).2.heap = st.heap := by
  unfold nextTokenP
  rcases st with ⟨toks, cur, rm, al, hp⟩
  rcases toks with _ | ⟨t, r⟩
  · rfl
  · dsimp only
    split <;> rfl

theorem nextTokenP_aliases (st : PState) : (nextTokenP st).2.aliases = st.aliases := by
  unfold nextTokenP
  rcases st with ⟨toks, cur, rm, al, hp⟩
  rcases toks with _ | ⟨t, r⟩
  · rfl
  · dsimp only
    split <;> rfl

theorem nextTokenP_rootMark (st : PState) : (nextTokenP st).2.rootMark = st.rootMark := by
  unfold nextTokenP
  rcases st with ⟨toks, cur, rm, al, hp⟩
  rcases toks with _ | ⟨t, r⟩
  · rfl
  · dsimp only
    split <;> rfl

/-- Observable facts about the alias table across one parse step: it only ever
grows by appended entries, and while an anchored value is being parsed (the
reserved slot is last) it does not change at all. -/
def AliasObs (st st' : PState) : Prop :=
  (∃ ext, st'.aliases = st.aliases ++ ext) ∧
  (anchorGuard st.aliases = true → st'.aliases = st.aliases)

theorem AliasObs_of_eq {st st' : PState} (h : st'.aliases = st.aliases) : AliasObs st st' :=
  ⟨⟨[], by rw [h, List.append_nil]⟩, fun _ => h⟩

theorem AliasObs_refl (st : PState) : AliasObs st st := AliasObs_of_eq rfl

theorem AliasObs_trans {a b c : PState} (h1 : AliasObs a b) (h2 : AliasObs b c) :
    AliasObs a c := by
  rcases h1 with ⟨⟨e1, he1⟩, g1⟩
  rcases h2 with ⟨⟨e2, he2⟩, g2⟩
  refine ⟨⟨e1 ++ e2, by rw [he2, he1, List.append_assoc]⟩, ?_⟩
  intro hg
  have hb := g1 hg
  have hgb : anchorGuard b.aliases = true := by rw [hb]; exact hg
  rw [g2 hgb, hb]

theorem anchorGuard_phantom (l : List AliasE) :
    anchorGuard (l ++ [⟨none, none⟩]) = true := by
  unfold anchorGuard
  rw [List.getLast?_concat]
  rfl

theorem map_add_next (h : Heap) (i : Nat) (k : String) (v : Nat) :
    (map_add h i k v).next = h.next := by
  unfold map_add
  cases h.get i with
  | none => rfl
  | some d => rw [Heap.next_set]

theorem map_add_WF (h : Heap) (i : Nat) (k : String) (v : Nat) (hw : h.WF) :
    (map_add h i k v).WF := by
  unfold map_add
  cases h.get i with
  | none => exact hw
  | some d => exact Heap.WF_set _ _ _ hw

theorem map_add_get_ne (h : Heap) (i j : Nat) (k : String) (v : Nat) (hne : j ≠ i) :
    (map_add h i k v).get j = h.get j := by
  unfold map_add
  cases h.get i with
  | none => rfl
  | some d => exact Heap.get_set_ne h i j _ hne

theorem map_add_get_self (h : Heap) (i : Nat) (k : String) (v : Nat) (d : NodeData)
    (hd : h.get i = some d) :
    (map_add h i k v).get i = some { d with entries := d.entries ++ [(k, v)] } := by
  unfold map_add
  rw [hd]
  simp only
  rw [Heap.get_set_self, hd]
  rfl

theorem sequence_add_next (h : Heap) (i : Nat) (v : Nat) :
    (sequence_add h i v).next = h.next := by
  unfold sequence_add
  cases h.get i with
  | none => rfl
  | some d => rw [Heap.next_set]

theorem sequence_add_WF (h : Heap) (i : Nat) (v : Nat) (hw : h.WF) :
    (sequence_add h i v).WF := by
  unfold sequence_add
  cases h.get i with
  | none => exact hw
  | some d => exact Heap.WF_set _ _ _ hw

theorem sequence_add_get_ne (h : Heap) (i j : Nat) (v : Nat) (hne : j ≠ i) :
    (sequence_add h i v).get j = h.get j := by
  unfold sequence_add
  cases h.get i with
  | none => rfl
  | some d => exact Heap.get_set_ne h i j _ hne

theorem sequence_add_get_self (h : Heap) (i : Nat) (v : Nat) (d : NodeData)
    (hd : h.get i = some d) :
    (sequence_add h i v).get i = some { d with items := d.items ++ [v] } := by
  unfold sequence_add
  rw [hd]
  simp only
  rw [Heap.get_set_self, hd]
  rfl

theorem mergeHeadOk_cases {st : PState} (h : mergeHeadOk st = true) :
    ∃ t rest, st.toks = t :: rest ∧
      (t.kind = TokenKind.openMap ∨ t.kind = TokenKind.alias) := by
  unfold mergeHeadOk at h
  rcases hts : st.toks with _ | ⟨t, rest⟩
  · rw [hts] at h
    cases h
  · rw [hts] at h
    dsimp only at h
    exact ⟨t, rest, rfl, by simpa using h⟩

theorem nextTokenP_cons (st : PState) (t : Token) (r : List Token) (h : st.toks = t :: r)
    (hk : ¬ (t.kind = TokenKind.number ∨ t.kind = TokenKind.boolean)) :
    nextTokenP st = (t, { st with toks := r, curToken := t }) := by
  unfold nextTokenP
  rw [h]
  dsimp only
  rw [if_neg hk]

/-- Per-mode conclusions of the soundness induction over parseGo: parse_value
changes pre-existing nodes only in their reference counts, preserves the
nesting counter, and when it starts at an open brace it returns a freshly
allocated node that is a map in the final heap; the two loops return their own
node, whose earlier entries/items survive as a prefix, decrement (parse_map)
or preserve (parse_seq) the nesting counter, and touch other pre-existing
nodes only in their reference counts. -/
def parseConc : PMode → PState → Nat → PState → Prop
  | .value, st, r, st' =>
      (∀ i, rcOnly (st.heap.get i) (st'.heap.get i)) ∧
      st'.rootMark = st.rootMark ∧
      ((nextTokenP st).1.kind = TokenKind.openMap →
        st.heap.next ≤ r ∧ ∃ d, st'.heap.get r = some d ∧ d.kind = NodeKind.map)
  | .mapLoop dst, st, r, st' =>
      (st.heap.get dst).isSome →
      (r = dst ∧
       (∀ i, i ≠ dst → rcOnly (st.heap.get i) (st'.heap.get i)) ∧
       (∀ dd, st.heap.get dst = some dd →
         ∃ rc ext, st'.heap.get dst = some { dd with rcount := rc, entries := dd.entries ++ ext }) ∧
       st'.rootMark = u16dec st.rootMark)
  | .seqLoop sid, st, r, st' =>
      (st.heap.get sid).isSome →
      (r = sid ∧
       (∀ i, i ≠ sid → rcOnly (st.heap.get i) (st'.heap.get i)) ∧
       (∀ dd, st.heap.get sid = some dd →
         ∃ rc ext, st'.heap.get sid = some { dd with rcount := rc, items := dd.items ++ ext }) ∧
       st'.rootMark = st.rootMark)

/-- Soundness of the merged tree-builder recursion: every successful step
keeps the heap well formed, never shrinks the allocation counter, only
appends to the alias table (and freezes it inside an anchored value), and
satisfies the per-mode conclusions of parseConc. -/
theorem parseGo_sound : ∀ fuel mode st r st',
    parseGo fuel mode st = .ok (r, st') → Stok st →
    Stok st' ∧ st.heap.next ≤ st'.heap.next ∧ AliasObs st st' ∧ parseConc mode st r st' := by
  intro fuel
  induction fuel with
  | zero =>
    intro mode st r st' hok
    simp [parseGo] at hok
  | succ fuel ih =>
    intro mode st r st' hok hst
    cases mode with
    | value =>
      rcases htk : nextTokenP st with ⟨token, st0⟩
      have hsheap : st0.heap = st.heap := by
        have h1 := nextTokenP_heap st; rw [htk] at h1; exact h1
      have hsal : st0.aliases = st.aliases := by
        have h1 := nextTokenP_aliases st; rw [htk] at h1; exact h1
      have hsrm : st0.rootMark = st.rootMark := by
        have h1 := nextTokenP_rootMark st; rw [htk] at h1; exact h1
      unfold parseGo at hok
      rw [htk] at hok
      dsimp only at hok
      simp only [parseConc]
      rw [htk]
      obtain ⟨tk, raw, len⟩ := token
      dsimp only at hok ⊢
      cases tk
      case unknown => simp at hok
      case key => simp at hok
      case comma => simp at hok
      case closeMap => simp at hok
      case closeSeq => simp at hok
      case eofTok => simp at hok
      case anchor =>
        by_cases hg : anchorGuard st0.aliases = true
        · rw [if_pos hg] at hok; simp at hok
        · rw [if_neg hg] at hok
          by_cases hb : (parse_alias st0.aliases raw).isSome = true
          · rw [if_pos hb] at hok; simp at hok
          · rw [if_neg hb] at hok
            rcases hrec : parseGo fuel .value
                { st0 with aliases := st0.aliases ++ [⟨none, none⟩] } with e | ⟨v, st2⟩
            · rw [hrec] at hok; simp at hok
            · rw [hrec] at hok
              dsimp only at hok
              have hinj : v = r ∧
                  ({ st2 with aliases := st2.aliases.dropLast ++
                      [⟨some raw, some v⟩] } : PState) = st' := by
                constructor
                · exact congrArg Prod.fst (Except.ok.inj hok)
                · exact congrArg Prod.snd (Except.ok.inj hok)
              obtain ⟨hvr, hst'⟩ := hinj
              subst hvr
              subst hst'
              have hstok1 : Stok { st0 with aliases := st0.aliases ++ [⟨none, none⟩] } := by
                refine ⟨?_, ?_⟩
                · show st0.heap.WF
                  rw [hsheap]; exact hst.1
                · show st0.rootMark < 65536
                  rw [hsrm]; exact hst.2
              obtain ⟨hstok2, hnext2, hao2, hconc2⟩ := ih .value _ _ _ hrec hstok1
              simp only [parseConc] at hconc2
              obtain ⟨hrc2, hrm2, -⟩ := hconc2
              have hfreeze : st2.aliases = st0.aliases ++ [⟨none, none⟩] := by
                have hgph : anchorGuard
                    (({ st0 with aliases := st0.aliases ++ [⟨none, none⟩] } : PState).aliases) =
                    true := anchorGuard_phantom st0.aliases
                exact hao2.2 hgph
              refine ⟨⟨hstok2.1, ?_⟩, ?_, ?_, ?_, ?_, ?_⟩
              · show st2.rootMark < 65536
                exact hstok2.2
              · show st.heap.next ≤ st2.heap.next
                rw [← hsheap]; exact hnext2
              · -- alias table: one appended binding, and no anchor appears
                -- while another anchored value is being parsed
                refine ⟨⟨[⟨some raw, some v⟩], ?_⟩, ?_⟩
                · show st2.aliases.dropLast ++ [(⟨some raw, some v⟩ : AliasE)] =
                    st.aliases ++ [⟨some raw, some v⟩]
                  rw [hfreeze, List.dropLast_concat, hsal]
                · intro hg2
                  exact absurd (by rw [hsal]; exact hg2) hg
              · intro i
                refine rcOnly_trans (rcOnly_of_eq ?_) (hrc2 i)
                rw [hsheap]
              · show st2.rootMark = st.rootMark
                rw [hrm2]
                show st0.rootMark = st.rootMark
                exact hsrm
              · intro hcon
                simp at hcon
      case «alias» =>
        dsimp only at hok
        rcases hpa : parse_alias st0.aliases raw with _ | v
        · rw [hpa] at hok; simp at hok
        · rw [hpa] at hok
          dsimp only at hok
          have hvr : v = r := congrArg Prod.fst (Except.ok.inj hok)
          have hst' : ({ st0 with heap := st0.heap.bump v } : PState) = st' :=
            congrArg Prod.snd (Except.ok.inj hok)
          subst hvr
          subst hst'
          refine ⟨⟨?_, ?_⟩, ?_, ?_, ?_, ?_, ?_⟩
          · show (st0.heap.bump v).WF
            exact Heap.WF_bump _ _ (by rw [hsheap]; exact hst.1)
          · show st0.rootMark < 65536
            rw [hsrm]; exact hst.2
          · show st.heap.next ≤ (st0.heap.bump v).next
            rw [Heap.next_bump, hsheap]
          · exact AliasObs_of_eq hsal
          · intro i
            refine rcOnly_trans (rcOnly_of_eq ?_) (rcOnly_bump st0.heap v i)
            rw [hsheap]
          · exact hsrm
          · intro hcon
            simp at hcon
      case string =>
        dsimp only at hok
        have hvr : (st0.heap.alloc { kind := .str, string := raw }).1 = r :=
          congrArg Prod.fst (Except.ok.inj hok)
        have hst' : ({ st0 with heap := (st0.heap.alloc { kind := .str, string := raw }).2 } :
            PState) = st' := congrArg Prod.snd (Except.ok.inj hok)
        subst hst'
        have hw0 : st0.heap.WF := by rw [hsheap]; exact hst.1
        refine ⟨⟨Heap.WF_alloc _ _ hw0, by show st0.rootMark < 65536; rw [hsrm]; exact hst.2⟩,
          ?_, AliasObs_of_eq hsal, ?_, hsrm, ?_⟩
        · show st.heap.next ≤ (st0.heap.alloc _).2.next
          rw [Heap.next_alloc, hsheap]
          exact Nat.le_succ _
        · intro i
          refine rcOnly_trans (rcOnly_of_eq ?_) (rcOnly_alloc st0.heap _ hw0 i)
          rw [hsheap]
        · intro hcon
          simp at hcon
      case stringLit =>
        dsimp only at hok
        have hvr : (st0.heap.alloc { kind := .str, string := raw }).1 = r :=
          congrArg Prod.fst (Except.ok.inj hok)
        have hst' : ({ st0 with heap := (st0.heap.alloc { kind := .str, string := raw }).2 } :
            PState) = st' := congrArg Prod.snd (Except.ok.inj hok)
        subst hst'
        have hw0 : st0.heap.WF := by rw [hsheap]; exact hst.1
        refine ⟨⟨Heap.WF_alloc _ _ hw0, by show st0.rootMark < 65536; rw [hsrm]; exact hst.2⟩,
          ?_, AliasObs_of_eq hsal, ?_, hsrm, ?_⟩
        · show st.heap.next ≤ (st0.heap.alloc _).2.next
          rw [Heap.next_alloc, hsheap]
          exact Nat.le_succ _
        · intro i
          refine rcOnly_trans (rcOnly_of_eq ?_) (rcOnly_alloc st0.heap _ hw0 i)
          rw [hsheap]
        · intro hcon
          simp at hcon
      case number =>
        dsimp only at hok
        have hvr : (st0.heap.alloc
            (parse_number { kind := .number, raw := raw, length := len })).1 = r :=
          congrArg Prod.fst (Except.ok.inj hok)
        have hst' : ({ st0 with heap := (st0.heap.alloc
            (parse_number { kind := .number, raw := raw, length := len })).2 } :
            PState) = st' := congrArg Prod.snd (Except.ok.inj hok)
        subst hst'
        have hw0 : st0.heap.WF := by rw [hsheap]; exact hst.1
        refine ⟨⟨Heap.WF_alloc _ _ hw0, by show st0.rootMark < 65536; rw [hsrm]; exact hst.2⟩,
          ?_, AliasObs_of_eq hsal, ?_, hsrm, ?_⟩
        · show st.heap.next ≤ (st0.heap.alloc _).2.next
          rw [Heap.next_alloc, hsheap]
          exact Nat.le_succ _
        · intro i
          refine rcOnly_trans (rcOnly_of_eq ?_) (rcOnly_alloc st0.heap _ hw0 i)
          rw [hsheap]
        · intro hcon
          simp at hcon
      case boolean =>
        dsimp only at hok
        have hvr : (st0.heap.alloc { kind := .bool, boolean := len = 1 }).1 = r :=
          congrArg Prod.fst (Except.ok.inj hok)
        have hst' : ({ st0 with heap :=
            (st0.heap.alloc { kind := .bool, boolean := len = 1 }).2 } : PState) = st' :=
          congrArg Prod.snd (Except.ok.inj hok)
        subst hst'
        have hw0 : st0.heap.WF := by rw [hsheap]; exact hst.1
        refine ⟨⟨Heap.WF_alloc _ _ hw0, by show st0.rootMark < 65536; rw [hsrm]; exact hst.2⟩,
          ?_, AliasObs_of_eq hsal, ?_, hsrm, ?_⟩
        · show st.heap.next ≤ (st0.heap.alloc _).2.next
          rw [Heap.next_alloc, hsheap]
          exact Nat.le_succ _
        · intro i
          refine rcOnly_trans (rcOnly_of_eq ?_) (rcOnly_alloc st0.heap _ hw0 i)
          rw [hsheap]
        · intro hcon
          simp at hcon
      case openMap =>
        dsimp only at hok
        have hw0 : st0.heap.WF := by rw [hsheap]; exact hst.1
        have hrm0 : st0.rootMark < 65536 := by rw [hsrm]; exact hst.2
        have hstokE : Stok { st0 with
            rootMark := u16inc st0.rootMark,
            heap := (st0.heap.alloc { kind := .map }).2 } :=
          ⟨Heap.WF_alloc _ _ hw0, u16inc_lt _⟩
        obtain ⟨hstokE', hnextE, haoE, hconcE⟩ := ih _ _ _ _ hok hstokE
        simp only [parseConc] at hconcE
        have halive : (((st0.heap.alloc { kind := .map }).2).get st0.heap.next).isSome := by
          rw [Heap.get_alloc_self st0.heap _ hw0]; rfl
        obtain ⟨hrdst, hB3, hB4, hrmE⟩ := hconcE halive
        refine ⟨hstokE', ?_, ?_, ?_, ?_, ?_⟩
        · show st.heap.next ≤ st'.heap.next
          have h1 : st.heap.next ≤ (st0.heap.alloc { kind := .map }).2.next := by
            rw [Heap.next_alloc, hsheap]; exact Nat.le_succ _
          exact Nat.le_trans h1 hnextE
        · exact AliasObs_trans (AliasObs_of_eq hsal) haoE
        · intro i d hd
          have hlt : i < st.heap.next := Heap.get_lt_next hst.1 hd
          have hne : i ≠ st0.heap.next := by rw [hsheap]; exact Nat.ne_of_lt hlt
          have hd0 : st0.heap.get i = some d := by rw [hsheap]; exact hd
          rcases rcOnly_alloc st0.heap { kind := .map } hw0 i d hd0 with ⟨rc1, hd1⟩
          rcases hB3 i hne _ hd1 with ⟨rc2, hd2⟩
          exact ⟨rc2, hd2⟩
        · show st'.rootMark = st.rootMark
          rw [hrmE]
          show u16dec (u16inc st0.rootMark) = st.rootMark
          rw [u16dec_inc _ hrm0, hsrm]
        · intro _
          constructor
          · show st.heap.next ≤ r
            rw [hrdst, hsheap]
            exact Nat.le_refl _
          · rcases hB4 { kind := .map } (Heap.get_alloc_self st0.heap _ hw0) with ⟨rc, ext, hB4r⟩
            rw [hrdst]
            refine ⟨_, hB4r, ?_⟩
            rfl
      case openSeq =>
        dsimp only at hok
        have hw0 : st0.heap.WF := by rw [hsheap]; exact hst.1
        have hrm0 : st0.rootMark < 65536 := by rw [hsrm]; exact hst.2
        have hstokE : Stok { st0 with heap := (st0.heap.alloc { kind := .seq }).2 } :=
          ⟨Heap.WF_alloc _ _ hw0, hrm0⟩
        obtain ⟨hstokE', hnextE, haoE, hconcE⟩ := ih _ _ _ _ hok hstokE
        simp only [parseConc] at hconcE
        have halive : (((st0.heap.alloc { kind := .seq }).2).get st0.heap.next).isSome := by
          rw [Heap.get_alloc_self st0.heap _ hw0]; rfl
        obtain ⟨hrdst, hB3, hB4, hrmE⟩ := hconcE halive
        refine ⟨hstokE', ?_, ?_, ?_, ?_, ?_⟩
        · show st.heap.next ≤ st'.heap.next
          have h1 : st.heap.next ≤ (st0.heap.alloc { kind := .seq }).2.next := by
            rw [Heap.next_alloc, hsheap]; exact Nat.le_succ _
          exact Nat.le_trans h1 hnextE
        · exact AliasObs_trans (AliasObs_of_eq hsal) haoE
        · intro i d hd
          have hlt : i < st.heap.next := Heap.get_lt_next hst.1 hd
          have hne : i ≠ st0.heap.next := by rw [hsheap]; exact Nat.ne_of_lt hlt
          have hd0 : st0.heap.get i = some d := by rw [hsheap]; exact hd
          rcases rcOnly_alloc st0.heap { kind := .seq } hw0 i d hd0 with ⟨rc1, hd1⟩
          rcases hB3 i hne _ hd1 with ⟨rc2, hd2⟩
          exact ⟨rc2, hd2⟩
        · show st'.rootMark = st.rootMark
          rw [hrmE]
          exact hsrm
        · intro hcon
          simp at hcon
    | mapLoop dst =>
      rcases htk : nextTokenP st with ⟨t0, st0⟩
      have hsheap : st0.heap = st.heap := by
        have h1 := nextTokenP_heap st; rw [htk] at h1; exact h1
      have hsal : st0.aliases = st.aliases := by
        have h1 := nextTokenP_aliases st; rw [htk] at h1; exact h1
      have hsrm : st0.rootMark = st.rootMark := by
        have h1 := nextTokenP_rootMark st; rw [htk] at h1; exact h1
      unfold parseGo at hok
      rw [htk] at hok
      dsimp only at hok
      simp only [parseConc]
      -- the analysis of the loop body after the comma handling, shared by the
      -- comma and no-comma paths
      have tail : ∀ (token : Token) (st1 : PState),
          st1.heap = st.heap → st1.aliases = st.aliases → st1.rootMark = st.rootMark →
          ((if token.kind = TokenKind.eofTok then
              if st1.rootMark = 0 then
                Except.ok (dst, { st1 with rootMark := u16dec st1.rootMark })
              else Except.error YErr.unexpectedToken
            else if token.kind ≠ TokenKind.key then Except.error YErr.unexpectedToken
            else if token.length = 2 ∧ token.raw = "<<" then
              if mergeHeadOk st1 = false then Except.error YErr.unexpectedToken
              else
                match parseGo fuel PMode.value st1 with
                | Except.error e => Except.error e
                | Except.ok (v, st2) =>
                  match st2.heap.get v with
                  | none => Except.error YErr.unexpectedToken
                  | some s =>
                    if s.kind ≠ NodeKind.map then Except.error YErr.unexpectedToken
                    else parseGo fuel (PMode.mapLoop dst)
                      { st2 with heap := mergeConsume st2.heap dst v }
            else
              match parseGo fuel PMode.value st1 with
              | Except.error e => Except.error e
              | Except.ok (v, st2) =>
                parseGo fuel (PMode.mapLoop dst)
                  { st2 with heap := map_add st2.heap dst token.raw v }) =
            Except.ok (r, st')) →
          Stok st' ∧ st.heap.next ≤ st'.heap.next ∧ AliasObs st st' ∧
          ((st.heap.get dst).isSome →
            (r = dst ∧
             (∀ i, i ≠ dst → rcOnly (st.heap.get i) (st'.heap.get i)) ∧
             (∀ dd, st.heap.get dst = some dd →
               ∃ rc ext, st'.heap.get dst =
                 some { dd with rcount := rc, entries := dd.entries ++ ext }) ∧
             st'.rootMark = u16dec st.rootMark)) := by
        intro token st1 h1heap h1al h1rm hok
        have hstok1 : Stok st1 := ⟨by rw [h1heap]; exact hst.1, by rw [h1rm]; exact hst.2⟩
        by_cases heof : token.kind = TokenKind.eofTok
        · rw [if_pos heof] at hok
          by_cases hz1 : st1.rootMark = 0
          · rw [if_pos hz1] at hok
            have hrd : dst = r := congrArg Prod.fst (Except.ok.inj hok)
            have hst' : ({ st1 with rootMark := u16dec st1.rootMark } : PState) = st' :=
              congrArg Prod.snd (Except.ok.inj hok)
            subst hst'
            refine ⟨⟨?_, u16dec_lt _⟩, ?_, AliasObs_of_eq h1al, ?_⟩
            · show st1.heap.WF
              rw [h1heap]; exact hst.1
            · show st.heap.next ≤ st1.heap.next
              rw [h1heap]
            · intro hdst
              refine ⟨hrd.symm, ?_, ?_, ?_⟩
              · intro i hi
                exact rcOnly_of_eq (by rw [h1heap])
              · intro dd hdd
                refine ⟨dd.rcount, [], ?_⟩
                show st1.heap.get dst = some _
                rw [h1heap, hdd]
                obtain ⟨k, rc0, s0, n0, b0, en0, it0⟩ := dd
                simp
              · show u16dec st1.rootMark = u16dec st.rootMark
                rw [h1rm]
          · rw [if_neg hz1] at hok
            cases hok
        · rw [if_neg heof] at hok
          by_cases hkey : token.kind = TokenKind.key
          · rw [if_neg (not_not_intro hkey)] at hok
            by_cases hmg : token.length = 2 ∧ token.raw = "<<"
            · -- merge key entry
              rw [if_pos hmg] at hok
              by_cases hmh : mergeHeadOk st1 = false
              · rw [if_pos hmh] at hok; cases hok
              · rw [if_neg hmh] at hok
                have hmh' : mergeHeadOk st1 = true := by
                  cases hmb : mergeHeadOk st1
                  · exact absurd hmb hmh
                  · rfl
                obtain ⟨thead, rest, hts, hkind⟩ := mergeHeadOk_cases hmh'
                rcases hrec : parseGo fuel .value st1 with e | ⟨v, st2⟩
                · rw [hrec] at hok; simp at hok
                · rw [hrec] at hok
                  dsimp only at hok
                  rcases hgv : st2.heap.get v with _ | s
                  · rw [hgv] at hok; simp at hok
                  · rw [hgv] at hok
                    dsimp only at hok
                    by_cases hsk : s.kind ≠ NodeKind.map
                    · rw [if_pos hsk] at hok; cases hok
                    · rw [if_neg hsk] at hok
                      -- facts about the parsed merge source, by the form of
                      -- its first token (open brace or asterisk)
                      have hbundle : Stok st2 ∧ st1.heap.next ≤ st2.heap.next ∧
                          AliasObs st1 st2 ∧ st2.rootMark = st1.rootMark ∧
                          (∀ i, rcOnly (st1.heap.get i) (st2.heap.get i)) ∧
                          (0 < s.rcount ∨ st1.heap.next ≤ v) := by
                        rcases hkind with hopen | halias
                        · obtain ⟨hstok2, hnext2, hao2, hconc2⟩ :=
                            ih .value st1 v st2 hrec hstok1
                          simp only [parseConc] at hconc2
                          obtain ⟨hrc2, hrm2, hopenc⟩ := hconc2
                          have hhead : (nextTokenP st1).1.kind = TokenKind.openMap := by
                            rw [nextTokenP_head hts]; exact hopen
                          obtain ⟨hvge, -⟩ := hopenc hhead
                          exact ⟨hstok2, hnext2, hao2, hrm2, hrc2, Or.inr hvge⟩
                        · -- unfold the alias arm of parse_value by hand
                          cases fuel with
                          | zero => rw [parseGo] at hrec; cases hrec
                          | succ f =>
                            unfold parseGo at hrec
                            rw [nextTokenP_cons st1 thead rest hts
                              (by rw [halias]; simp)] at hrec
                            dsimp only at hrec
                            rw [halias] at hrec
                            dsimp only at hrec
                            rcases hpa : parse_alias st1.aliases thead.raw with _ | v'
                            · rw [hpa] at hrec; cases hrec
                            · rw [hpa] at hrec
                              dsimp only at hrec
                              have hvv : v' = v := congrArg Prod.fst (Except.ok.inj hrec)
                              subst hvv
                              have hst2 : ({ st1 with
                                  toks := rest, curToken := thead,
                                  heap := st1.heap.bump v' } : PState) = st2 :=
                                congrArg Prod.snd (Except.ok.inj hrec)
                              refine ⟨⟨?_, ?_⟩, ?_, AliasObs_of_eq (by rw [← hst2]), ?_, ?_, ?_⟩
                              · rw [← hst2]
                                exact Heap.WF_bump _ _ hstok1.1
                              · rw [← hst2]
                                exact hstok1.2
                              · rw [← hst2]
                                show st1.heap.next ≤ (st1.heap.bump v').next
                                rw [Heap.next_bump]
                              · rw [← hst2]
                              · intro i
                                refine rcOnly_trans (rcOnly_bump st1.heap v' i)
                                  (rcOnly_of_eq ?_)
                                rw [← hst2]
                              · left
                                have hb : st2.heap.get v' =
                                    (st1.heap.get v').map
                                      (fun d => { d with rcount := d.rcount + 1 }) := by
                                  rw [← hst2]
                                  exact Heap.get_bump_self st1.heap v'
                                rw [hgv] at hb
                                rcases hcase : st1.heap.get v' with _ | d0
                                · rw [hcase] at hb; cases hb
                                · rw [hcase] at hb
                                  injection hb with hb
                                  rw [hb]
                                  exact Nat.succ_pos _
                      obtain ⟨hstok2, hnext12, hao12, hrm12, hrc12, hsafe0⟩ := hbundle
                      have hstokM : Stok { st2 with
                          heap := mergeConsume st2.heap dst v } :=
                        ⟨mergeConsume_WF _ _ _ hstok2.1, hstok2.2⟩
                      obtain ⟨hstokF, hnextF, haoF, hconcF⟩ := ih _ _ _ _ hok hstokM
                      simp only [parseConc] at hconcF
                      refine ⟨hstokF, ?_, ?_, ?_⟩
                      · have h1 : st.heap.next ≤ st2.heap.next := by
                          rw [← h1heap]; exact hnext12
                        have h2 : (mergeConsume st2.heap dst v).next = st2.heap.next :=
                          mergeConsume_next _ _ _
                        refine Nat.le_trans h1 ?_
                        rw [← h2]
                        exact hnextF
                      · refine AliasObs_trans (AliasObs_of_eq h1al)
                          (AliasObs_trans hao12 (AliasObs_trans (AliasObs_of_eq rfl) haoF))
                      · intro hdst
                        have hdst1 : (st1.heap.get dst).isSome := by
                          rw [h1heap]; exact hdst
                        have hdst2 : (st2.heap.get dst).isSome :=
                          rcOnly_isSome (hrc12 dst) hdst1
                        have hsafe : 0 < s.rcount ∨ dst ≠ v := by
                          rcases hsafe0 with h | h
                          · exact Or.inl h
                          · right
                            rcases Option.isSome_iff_exists.1 hdst1 with ⟨dd, hdd⟩
                            have := Heap.get_lt_next hstok1.1 hdd
                            omega
                        obtain ⟨-, -, hmcDst, hmcNe, hmcSh⟩ :=
                          mergeConsume_facts st2.heap dst v s hgv hstok2.1 hsafe
                        have hdstM : (((mergeConsume st2.heap dst v)).get dst).isSome := by
                          rcases Option.isSome_iff_exists.1 hdst2 with ⟨dd2, hdd2⟩
                          rcases hmcDst dd2 hdd2 with ⟨rcM, extM, hddM⟩
                          rw [hddM]; rfl
                        obtain ⟨hrdst, hB3F, hB4F, hrmF⟩ := hconcF hdstM
                        refine ⟨hrdst, ?_, ?_, ?_⟩
                        · intro i hine d hd
                          have hlt : i < st.heap.next := Heap.get_lt_next hst.1 hd
                          have hd1 : st1.heap.get i = some d := by rw [h1heap]; exact hd
                          rcases hrc12 i d hd1 with ⟨rc1, hd2⟩
                          have hmci : rcOnly (st2.heap.get i)
                              ((mergeConsume st2.heap dst v).get i) := by
                            rcases hsafe0 with hsh | hge
                            · exact hmcSh hsh i hine
                            · refine hmcNe i hine ?_
                              have : i < st1.heap.next := by rw [h1heap]; exact hlt
                              omega
                          rcases hmci _ hd2 with ⟨rc2, hd3⟩
                          rcases hB3F i hine _ hd3 with ⟨rc3, hd4⟩
                          exact ⟨rc3, hd4⟩
                        · intro dd hdd
                          have hdd1 : st1.heap.get dst = some dd := by
                            rw [h1heap]; exact hdd
                          rcases hrc12 dst dd hdd1 with ⟨rc1, hddA⟩
                          rcases hmcDst _ hddA with ⟨rc2, ext2, hddB⟩
                          rcases hB4F _ hddB with ⟨rc3, ext3, hddC⟩
                          refine ⟨rc3, ext2 ++ ext3, ?_⟩
                          rw [hddC]
                          simp [List.append_assoc]
                        · rw [hrmF]
                          show u16dec st2.rootMark = u16dec st.rootMark
                          rw [hrm12, h1rm]
            · -- ordinary key entry
              rw [if_neg hmg] at hok
              rcases hrec : parseGo fuel .value st1 with e | ⟨v, st2⟩
              · rw [hrec] at hok; simp at hok
              · rw [hrec] at hok
                dsimp only at hok
                obtain ⟨hstok2, hnext12, hao12, hconc2⟩ := ih .value st1 v st2 hrec hstok1
                simp only [parseConc] at hconc2
                obtain ⟨hrc12, hrm12, -⟩ := hconc2
                have hstokM : Stok { st2 with
                    heap := map_add st2.heap dst token.raw v } :=
                  ⟨map_add_WF _ _ _ _ hstok2.1, hstok2.2⟩
                obtain ⟨hstokF, hnextF, haoF, hconcF⟩ := ih _ _ _ _ hok hstokM
                simp only [parseConc] at hconcF
                refine ⟨hstokF, ?_, ?_, ?_⟩
                · have h1 : st.heap.next ≤ st2.heap.next := by
                    rw [← h1heap]; exact hnext12
                  refine Nat.le_trans h1 ?_
                  rw [← map_add_next st2.heap dst token.raw v]
                  exact hnextF
                · exact AliasObs_trans (AliasObs_of_eq h1al)
                    (AliasObs_trans hao12 (AliasObs_trans (AliasObs_of_eq rfl) haoF))
                · intro hdst
                  have hdst1 : (st1.heap.get dst).isSome := by
                    rw [h1heap]; exact hdst
                  have hdst2 : (st2.heap.get dst).isSome :=
                    rcOnly_isSome (hrc12 dst) hdst1
                  rcases Option.isSome_iff_exists.1 hdst2 with ⟨dd2, hdd2⟩
                  have hdstM : ((map_add st2.heap dst token.raw v).get dst).isSome := by
                    rw [map_add_get_self st2.heap dst token.raw v dd2 hdd2]; rfl
                  obtain ⟨hrdst, hB3F, hB4F, hrmF⟩ := hconcF hdstM
                  refine ⟨hrdst, ?_, ?_, ?_⟩
                  · intro i hine d hd
                    have hd1 : st1.heap.get i = some d := by rw [h1heap]; exact hd
                    rcases hrc12 i d hd1 with ⟨rc1, hd2⟩
                    have hd3 : (map_add st2.heap dst token.raw v).get i =
                        some { d with rcount := rc1 } := by
                      rw [map_add_get_ne st2.heap dst i token.raw v hine]
                      exact hd2
                    rcases hB3F i hine _ hd3 with ⟨rc3, hd4⟩
                    exact ⟨rc3, hd4⟩
                  · intro dd hdd
                    have hdd1 : st1.heap.get dst = some dd := by
                      rw [h1heap]; exact hdd
                    rcases hrc12 dst dd hdd1 with ⟨rc1, hddA⟩
                    have hddB : (map_add st2.heap dst token.raw v).get dst =
                        some { dd with
                          rcount := rc1,
                          entries := dd.entries ++ [(token.raw, v)] } :=
                      map_add_get_self st2.heap dst token.raw v _ hddA
                    rcases hB4F _ hddB with ⟨rc3, ext3, hddC⟩
                    refine ⟨rc3, [(token.raw, v)] ++ ext3, ?_⟩
                    rw [hddC]
                    simp [List.append_assoc]
                  · rw [hrmF]
                    show u16dec st2.rootMark = u16dec st.rootMark
                    rw [hrm12, h1rm]
          · -- not a key: UNEXPECTED_TOKEN
            rw [if_pos hkey] at hok
            cases hok
      -- dispatch on the token after next_token and the comma handling
      by_cases hclose : t0.kind = TokenKind.closeMap
      · rw [if_pos hclose] at hok
        have hrd : dst = r := congrArg Prod.fst (Except.ok.inj hok)
        have hst' : ({ st0 with rootMark := u16dec st0.rootMark } : PState) = st' :=
          congrArg Prod.snd (Except.ok.inj hok)
        subst hst'
        refine ⟨⟨?_, u16dec_lt _⟩, ?_, AliasObs_of_eq hsal, ?_⟩
        · show st0.heap.WF
          rw [hsheap]; exact hst.1
        · show st.heap.next ≤ st0.heap.next
          rw [hsheap]
        · intro hdst
          refine ⟨hrd.symm, ?_, ?_, ?_⟩
          · intro i hi
            exact rcOnly_of_eq (by rw [hsheap])
          · intro dd hdd
            refine ⟨dd.rcount, [], ?_⟩
            show st0.heap.get dst = some _
            rw [hsheap, hdd]
            obtain ⟨k, rc0, s0, n0, b0, en0, it0⟩ := dd
            simp
          · show u16dec st0.rootMark = u16dec st.rootMark
            rw [hsrm]
      · rw [if_neg hclose] at hok
        by_cases hc : st0.curToken.kind = TokenKind.comma
        · rw [if_pos hc] at hok
          by_cases hz : st0.rootMark = 0
          · rw [if_pos hz] at hok
            simp at hok
          · rw [if_neg hz] at hok
            rcases hnt : nextTokenP st0 with ⟨token1, st1⟩
            rw [hnt] at hok
            dsimp only at hok
            have h1heap : st1.heap = st.heap := by
              have h1 := nextTokenP_heap st0; rw [hnt] at h1
              rw [h1]; exact hsheap
            have h1al : st1.aliases = st.aliases := by
              have h1 := nextTokenP_aliases st0; rw [hnt] at h1
              rw [h1]; exact hsal
            have h1rm : st1.rootMark = st.rootMark := by
              have h1 := nextTokenP_rootMark st0; rw [hnt] at h1
              rw [h1]; exact hsrm
            exact tail token1 st1 h1heap h1al h1rm hok
        · rw [if_neg hc] at hok
          by_cases hsz : 0 < mapSize st0.heap dst ∧ 0 < st0.rootMark
          · rw [if_pos hsz] at hok
            simp at hok
          · rw [if_neg hsz] at hok
            dsimp only at hok
            exact tail st0.curToken st0 hsheap hsal hsrm hok
    | seqLoop sid =>
      unfold parseGo at hok
      dsimp only at hok
      simp only [parseConc]
      -- the element path (no immediate close bracket), shared by the empty
      -- token list and the non-bracket head cases
      have tailseq :
          (match parseGo fuel PMode.value st with
           | Except.error e => Except.error e
           | Except.ok (item, st1) =>
             if (nextTokenP st1).1.kind = TokenKind.eofTok then
               Except.error YErr.unexpectedToken
             else if (nextTokenP st1).1.kind ≠ TokenKind.comma ∧
                 (nextTokenP st1).1.kind ≠ TokenKind.closeSeq then
               Except.error YErr.unexpectedToken
             else if (nextTokenP st1).1.kind = TokenKind.closeSeq then
               Except.ok (sid, { (nextTokenP st1).2 with
                 heap := sequence_add (nextTokenP st1).2.heap sid item })
             else
               parseGo fuel (PMode.seqLoop sid) { (nextTokenP st1).2 with
                 heap := sequence_add (nextTokenP st1).2.heap sid item }) =
            Except.ok (r, st') →
          Stok st' ∧ st.heap.next ≤ st'.heap.next ∧ AliasObs st st' ∧
          ((st.heap.get sid).isSome →
            (r = sid ∧
             (∀ i, i ≠ sid → rcOnly (st.heap.get i) (st'.heap.get i)) ∧
             (∀ dd, st.heap.get sid = some dd →
               ∃ rc ext, st'.heap.get sid =
                 some { dd with rcount := rc, items := dd.items ++ ext }) ∧
             st'.rootMark = st.rootMark)) := by
        intro hok
        rcases hrec : parseGo fuel .value st with e | ⟨item, st1⟩
        · rw [hrec] at hok; cases hok
        · rw [hrec] at hok
          dsimp only at hok
          obtain ⟨hstok1, hnext01, hao01, hconc1⟩ := ih .value st item st1 hrec hst
          simp only [parseConc] at hconc1
          obtain ⟨hrc01, hrm01, -⟩ := hconc1
          rcases htk2 : nextTokenP st1 with ⟨token, st2⟩
          rw [htk2] at hok
          dsimp only at hok
          have h2heap : st2.heap = st1.heap := by
            have h1 := nextTokenP_heap st1; rw [htk2] at h1; exact h1
          have h2al : st2.aliases = st1.aliases := by
            have h1 := nextTokenP_aliases st1; rw [htk2] at h1; exact h1
          have h2rm : st2.rootMark = st1.rootMark := by
            have h1 := nextTokenP_rootMark st1; rw [htk2] at h1; exact h1
          by_cases heof : token.kind = TokenKind.eofTok
          · rw [if_pos heof] at hok; cases hok
          · rw [if_neg heof] at hok
            by_cases hbad : token.kind ≠ TokenKind.comma ∧ token.kind ≠ TokenKind.closeSeq
            · rw [if_pos hbad] at hok; cases hok
            · rw [if_neg hbad] at hok
              by_cases hcs : token.kind = TokenKind.closeSeq
              · rw [if_pos hcs] at hok
                have hrd : sid = r := congrArg Prod.fst (Except.ok.inj hok)
                have hst' : ({ st2 with
                    heap := sequence_add st2.heap sid item } : PState) = st' :=
                  congrArg Prod.snd (Except.ok.inj hok)
                subst hst'
                refine ⟨⟨?_, ?_⟩, ?_, ?_, ?_⟩
                · show (sequence_add st2.heap sid item).WF
                  rw [h2heap]
                  exact sequence_add_WF _ _ _ hstok1.1
                · show st2.rootMark < 65536
                  rw [h2rm]
                  exact hstok1.2
                · show st.heap.next ≤ (sequence_add st2.heap sid item).next
                  rw [sequence_add_next, h2heap]
                  exact hnext01
                · exact AliasObs_trans hao01 (AliasObs_of_eq h2al)
                · intro hsid
                  refine ⟨hrd.symm, ?_, ?_, ?_⟩
                  · intro i hi
                    refine rcOnly_trans (hrc01 i) (rcOnly_of_eq ?_)
                    show st1.heap.get i = (sequence_add st2.heap sid item).get i
                    rw [sequence_add_get_ne st2.heap sid i item hi, h2heap]
                  · intro dd hdd
                    rcases hrc01 sid dd hdd with ⟨rc1, hdd1⟩
                    refine ⟨rc1, [item], ?_⟩
                    show (sequence_add st2.heap sid item).get sid = some _
                    have hdd2 : st2.heap.get sid = some { dd with rcount := rc1 } := by
                      rw [h2heap]; exact hdd1
                    rw [sequence_add_get_self st2.heap sid item _ hdd2]
                  · show st2.rootMark = st.rootMark
                    rw [h2rm, hrm01]
              · rw [if_neg hcs] at hok
                have hstok3 : Stok { st2 with
                    heap := sequence_add st2.heap sid item } := by
                  refine ⟨?_, ?_⟩
                  · show (sequence_add st2.heap sid item).WF
                    rw [h2heap]
                    exact sequence_add_WF _ _ _ hstok1.1
                  · show st2.rootMark < 65536
                    rw [h2rm]
                    exact hstok1.2
                obtain ⟨hstokF, hnextF, haoF, hconcF⟩ := ih _ _ _ _ hok hstok3
                simp only [parseConc] at hconcF
                refine ⟨hstokF, ?_, ?_, ?_⟩
                · refine Nat.le_trans hnext01 ?_
                  have h2 : (sequence_add st2.heap sid item).next = st1.heap.next := by
                    rw [sequence_add_next, h2heap]
                  rw [← h2]
                  exact hnextF
                · exact AliasObs_trans hao01
                    (AliasObs_trans (AliasObs_of_eq h2al) haoF)
                · intro hsid
                  have hsid1 : (st1.heap.get sid).isSome := rcOnly_isSome (hrc01 sid) hsid
                  rcases Option.isSome_iff_exists.1 hsid1 with ⟨dd1, hdd1⟩
                  have hdd2 : st2.heap.get sid = some dd1 := by rw [h2heap]; exact hdd1
                  have hsid3 : ((sequence_add st2.heap sid item).get sid).isSome := by
                    rw [sequence_add_get_self st2.heap sid item _ hdd2]; rfl
                  obtain ⟨hrdst, hB3F, hB4F, hrmF⟩ := hconcF hsid3
                  refine ⟨hrdst, ?_, ?_, ?_⟩
                  · intro i hine d hd
                    rcases hrc01 i d hd with ⟨rc1, hd1⟩
                    have hd2 : (sequence_add st2.heap sid item).get i =
                        some { d with rcount := rc1 } := by
                      rw [sequence_add_get_ne st2.heap sid i item hine, h2heap]
                      exact hd1
                    rcases hB3F i hine _ hd2 with ⟨rc3, hd3⟩
                    exact ⟨rc3, hd3⟩
                  · intro dd hdd
                    rcases hrc01 sid dd hdd with ⟨rc1, hddA⟩
                    have hddB : st2.heap.get sid = some { dd with rcount := rc1 } := by
                      rw [h2heap]; exact hddA
                    have hddC : (sequence_add st2.heap sid item).get sid =
                        some { dd with rcount := rc1, items := dd.items ++ [item] } :=
                      sequence_add_get_self st2.heap sid item _ hddB
                    rcases hB4F _ hddC with ⟨rc3, ext3, hddD⟩
                    refine ⟨rc3, [item] ++ ext3, ?_⟩
                    rw [hddD]
                    simp [List.append_assoc]
                  · rw [hrmF]
                    show st2.rootMark = st.rootMark
                    rw [h2rm, hrm01]
      rcases hts : st.toks with _ | ⟨thead, trest⟩
      · rw [hts] at hok
        dsimp only at hok
        rw [if_neg (by simp)] at hok
        exact tailseq hok
      · rw [hts] at hok
        dsimp only at hok
        by_cases hck : thead.kind = TokenKind.closeSeq
        · rw [if_pos (by simp [hck])] at hok
          rcases htk : nextTokenP st with ⟨t0, st0⟩
          rw [htk] at hok
          dsimp only at hok
          have hsheap : st0.heap = st.heap := by
            have h1 := nextTokenP_heap st; rw [htk] at h1; exact h1
          have hsal : st0.aliases = st.aliases := by
            have h1 := nextTokenP_aliases st; rw [htk] at h1; exact h1
          have hsrm : st0.rootMark = st.rootMark := by
            have h1 := nextTokenP_rootMark st; rw [htk] at h1; exact h1
          have hrd : sid = r := congrArg Prod.fst (Except.ok.inj hok)
          have hst' : st0 = st' := congrArg Prod.snd (Except.ok.inj hok)
          subst hst'
          refine ⟨⟨?_, ?_⟩, ?_, AliasObs_of_eq hsal, ?_⟩
          · show st0.heap.WF
            rw [hsheap]; exact hst.1
          · show st0.rootMark < 65536
            rw [hsrm]; exact hst.2
          · show st.heap.next ≤ st0.heap.next
            rw [hsheap]
          · intro hsid
            refine ⟨hrd.symm, ?_, ?_, ?_⟩
            · intro i hi
              exact rcOnly_of_eq (by rw [hsheap])
            · intro dd hdd
              refine ⟨dd.rcount, [], ?_⟩
              show st0.heap.get sid = some _
              rw [hsheap, hdd]
              obtain ⟨k, rc0, s0, n0, b0, en0, it0⟩ := dd
              simp
            · show st0.rootMark = st.rootMark
              exact hsrm
        · rw [if_neg (by simp [hck])] at hok
          exact tailseq hok

/-! ### The character-level number/key scan (src/src/yaml.c 33-37, 257-344,
406-426)

The input is the list of bytes the chunked reader will deliver, end of the
list standing for end of file (the reof discipline of the part_001 iteration;
the chunk machinery itself is embedded further below). -/

/-- is_number_parseable (src/src/yaml.c 33): a digit, dot, minus or plus. -/
def is_number_parseable (c : Char) : Bool :=
  c.isDigit || c = '.' || c = '-' || c = '+'

/-- is_valid_delim (src/src/yaml.c 35-37): space, newline, comma, close brace
or close bracket. -/
def is_valid_delim (c : Char) : Bool :=
  c = ' ' || c = '\n' || c = ',' || c = '}' || c = ']'

/-- The scan loop of try_number (src/src/yaml.c 257-268) with the mid-scan
arena flush of lines 262-264: bytes accumulate in the 256-byte stack buffer
ilubsm (pending here); when it is full at the top of an iteration its 256
bytes are pushed to the string arena (appended to flushed here) before the
next byte is stored.  The components are (definitely a number, arena-flushed
text, pending stack-buffer text, remaining input); the scan is a number
exactly when it stopped at end of file or at a valid delimiter
(STACK_VALUE_BUFFER_SIZE is 256 per yaml.h). -/
def try_number_go : List Char → List Char → List Char →
    Bool × List Char × List Char × List Char
  | flushed, pending, [] => (true, flushed, pending, [])
  | flushed, pending, c :: cs =>
    if is_number_parseable c then
      if 256 ≤ pending.length then
        try_number_go (flushed ++ pending) [c] cs
      else
        try_number_go flushed (pending ++ [c]) cs
    else
      (is_valid_delim c, flushed, pending, c :: cs)

/-- try_number (src/src/yaml.c 257-279): on success the pending bytes are
pushed after the flushed ones, so the arena holds the whole scanned text; on
failure the pending bytes are discarded but any chunks already flushed mid
scan REMAIN in the arena, between start_offset and the key text a subsequent
try_key collects. -/
def try_number (l : List Char) : Bool × List Char × List Char × List Char :=
  try_number_go [] [] l

/-- The while loop of try_key (src/src/yaml.c 317-336): collect bytes until a
colon followed by a space or end of file; that colon is consumed but not part
of the key, any other colon is kept and the scan continues after it. -/
def try_key_loop : List Char → List Char × List Char
  | [] => ([], [])
  | c :: cs =>
    if c = ':' then
      match cs with
      | [] => ([], [])
      | c2 :: cs2 =>
        if c2 = ' ' then ([], c2 :: cs2)
        else
          let r := try_key_loop (c2 :: cs2)
          (':' :: r.1, r.2)
    else
      let r := try_key_loop cs
      (c :: r.1, r.2)

/-- try_key (src/src/yaml.c 305-344): the character under the cursor is
collected unconditionally, then the loop runs; the components are (key text,
remaining input). -/
def try_key : List Char → List Char × List Char
  | [] => ([], [])
  | c :: cs =>
    let r := try_key_loop cs
    (c :: r.1, r.2)

/-- The default arm of next_token for a leading digit, dot, minus or plus
(src/src/yaml.c 406-426): run try_number; on success the scanned text
(flushed chunks then pending bytes) is the NUMBER token; on failure the
input is re-read as a key from the CURRENT position by try_key, and the key
token - strline from start_offset - consists of whatever try_number flushed
mid scan followed by what try_key collects: the pending (unflushed) part of
the scan is dropped, so only for scans short enough never to flush (at most
256 bytes) does the key hold exactly the unscanned tail.  Any other head
goes straight to try_key. -/
def lexNumberOrKey (input : List Char) : Token × List Char :=
  match input with
  | [] => (eofToken, [])
  | c :: _ =>
    if is_number_parseable c then
      match try_number input with
      | (true, flushed, pending, rest) =>
        ({ kind := .number, raw := String.mk (flushed ++ pending),
           length := (flushed ++ pending).length }, rest)
      | (false, flushed, _, rest) =>
        let k := try_key rest
        ({ kind := .key, raw := String.mk (flushed ++ k.1),
           length := (flushed ++ k.1).length }, k.2)
    else
      let k := try_key input
      ({ kind := .key, raw := String.mk k.1, length := k.1.length }, k.2)

/-- The scan set claim C5 describes, following the spec's words (for
comparison with is_number_parseable, which lacks the last three): digits,
dot, minus, plus, underscore and the exponent markers. -/
def is_number_parseable_spec (c : Char) : Bool :=
  c.isDigit || c = '.' || c = '-' || c = '+' || c = '_' || c = 'e' || c = 'E'

/-- The number/key lexing step as the claim words it, following the spec's
words for comparison with lexNumberOrKey: scan over the extended set, emit a
number when the byte after the scan is a delimiter or end of file, otherwise
lex the FULL original text as a key. -/
def lexNumberOrKeySpec (input : List Char) : Token × List Char :=
  match input with
  | [] => (eofToken, [])
  | c :: _ =>
    if is_number_parseable c then
      let p := input.takeWhile is_number_parseable_spec
      let rest := input.dropWhile is_number_parseable_spec
      let delimOk : Bool :=
        match rest with
        | [] => true
        | c2 :: _ => is_valid_delim c2
      if delimOk then
        ({ kind := .number, raw := String.mk p, length := p.length }, rest)
      else
        let k := try_key input
        ({ kind := .key, raw := String.mk k.1, length := k.1.length }, k.2)
    else
      let k := try_key input
      ({ kind := .key, raw := String.mk k.1, length := k.1.length }, k.2)

/-- try_number of the part_001 iteration (src/unnamed/part_001 300-312): the
same scan but into the caller's buffer without flushing; the running length
check of line 303 dies with NUMBER_TOO_LONG when it reaches
MAX_NUMBER_LENGTH (the parameter maxNum; that define is not among the
repository's files).  The -1 failure return is the false verdict here. -/
def try_number_p001 (maxNum : Nat) :
    Nat → List Char → Except YErr (Bool × List Char × List Char)
  | _, [] => .ok (true, [], [])
  | len, c :: cs =>
    if is_number_parseable c then
      if maxNum ≤ len then .error .numberTooLong
      else
        match try_number_p001 maxNum (len + 1) cs with
        | .error e => .error e
        | .ok (b, p, rest) => .ok (b, c :: p, rest)
    else
      .ok (is_valid_delim c, [], c :: cs)

/-- The default arm of next_token in the part_001 iteration
(src/unnamed/part_001 428-457, with try_number 300-312 and try_key 338-366):
a successful number scan yields the NUMBER token; a FAILED scan returns -1,
next_token casts it to uint32 (4294967295) and hands it to try_key as the
running key length, whose first length check (line 341, against
STR_ALLOC_SIZE_BASE - the parameter sb, a stack-array size far below 2^32,
so the check always fires) dies with KEY_TOO_LONG: a failed scan is never
re-read as a key in this iteration.  A non-number head goes to try_key,
fatal once the collected key reaches sb bytes. -/
def lexNumberOrKey_p001 (maxNum sb : Nat) (input : List Char) :
    Except YErr (Token × List Char) :=
  match input with
  | [] => .ok (eofToken, [])
  | c :: _ =>
    if is_number_parseable c then
      match try_number_p001 maxNum 0 input with
      | .error e => .error e
      | .ok (true, p, rest) =>
        .ok ({ kind := .number, raw := String.mk p, length := p.length }, rest)
      | .ok (false, _, _) => .error .keyTooLong
    else
      let k := try_key input
      if sb ≤ k.1.length then .error .keyTooLong
      else .ok ({ kind := .key, raw := String.mk k.1, length := k.1.length }, k.2)

/-- The number scan accumulates the longest is_number_parseable prefix
(split between the flushed and pending parts), leaves the rest, and the
verdict is the delimiter test on the byte that follows the prefix. -/
theorem try_number_go_eq (l : List Char) : ∀ flushed pending,
    (try_number_go flushed pending l).1 =
      (match l.dropWhile is_number_parseable with
       | [] => true
       | c :: _ => is_valid_delim c) ∧
    (try_number_go flushed pending l).2.1 ++ (try_number_go flushed pending l).2.2.1 =
      flushed ++ (pending ++ l.takeWhile is_number_parseable) ∧
    (try_number_go flushed pending l).2.2.2 = l.dropWhile is_number_parseable := by
  induction l with
  | nil =>
    intro flushed pending
    exact ⟨rfl, by simp [try_number_go], rfl⟩
  | cons c cs ih =>
    intro flushed pending
    by_cases hc : is_number_parseable c = true
    · rw [List.takeWhile_cons, List.dropWhile_cons]
      simp only [hc, if_pos]
      unfold try_number_go
      rw [if_pos hc]
      by_cases hfl : 256 ≤ pending.length
      · rw [if_pos hfl]
        rcases ih (flushed ++ pending) [c] with ⟨h1, h2, h3⟩
        refine ⟨h1, ?_, h3⟩
        rw [h2]
        simp [List.append_assoc]
      · rw [if_neg hfl]
        rcases ih flushed (pending ++ [c]) with ⟨h1, h2, h3⟩
        refine ⟨h1, ?_, h3⟩
        rw [h2]
        simp [List.append_assoc]
    · have hc' : is_number_parseable c = false := by
        cases hb : is_number_parseable c
        · rfl
        · exact absurd hb hc
      rw [List.takeWhile_cons, List.dropWhile_cons]
      simp only [hc', Bool.false_eq_true, if_false]
      unfold try_number_go
      rw [if_neg (by simp [hc'])]
      exact ⟨rfl, by simp, rfl⟩

/-- A scan whose prefix fits the stack buffer never flushes: whatever was in
the arena before the scan is still exactly what is there after it. -/
theorem try_number_go_no_flush (l : List Char) : ∀ flushed pending,
    pending.length + (l.takeWhile is_number_parseable).length ≤ 256 →
    (try_number_go flushed pending l).2.1 = flushed := by
  induction l with
  | nil => intro flushed pending h; rfl
  | cons c cs ih =>
    intro flushed pending h
    by_cases hc : is_number_parseable c = true
    · rw [List.takeWhile_cons] at h
      simp only [hc, if_pos, List.length_cons] at h
      have hfl : ¬ 256 ≤ pending.length := by omega
      unfold try_number_go
      rw [if_pos hc, if_neg hfl]
      refine ih flushed (pending ++ [c]) ?_
      rw [List.length_append]
      simp only [List.length_singleton]
      omega
    · have hc' : is_number_parseable c = false := by
        cases hb : is_number_parseable c
        · rfl
        · exact absurd hb hc
      unfold try_number_go
      rw [if_neg (by simp [hc'])]

/-- A part_001 scan below the fatal length succeeds with the longest prefix
and the same delimiter verdict. -/
theorem try_number_p001_ok (l : List Char) : ∀ maxNum len,
    len + (l.takeWhile is_number_parseable).length ≤ maxNum →
    try_number_p001 maxNum len l =
      .ok ((match l.dropWhile is_number_parseable with
            | [] => true
            | c :: _ => is_valid_delim c),
           l.takeWhile is_number_parseable,
           l.dropWhile is_number_parseable) := by
  induction l with
  | nil => intro maxNum len h; rfl
  | cons c cs ih =>
    intro maxNum len h
    by_cases hc : is_number_parseable c = true
    · rw [List.takeWhile_cons] at h ⊢
      rw [List.dropWhile_cons]
      simp only [hc, if_pos, List.length_cons] at h ⊢
      have hlt : ¬ maxNum ≤ len := by omega
      unfold try_number_p001
      rw [if_pos hc, if_neg hlt, ih maxNum (len + 1) (by omega)]
    · have hc' : is_number_parseable c = false := by
        cases hb : is_number_parseable c
        · rfl
        · exact absurd hb hc
      rw [List.takeWhile_cons, List.dropWhile_cons]
      simp only [hc', Bool.false_eq_true, if_false]
      unfold try_number_p001
      rw [if_neg (by simp [hc'])]

/-! ### The chunked character reader (src/unnamed/part_001 58-94, and the
first-iteration variant src/src/yaml.c 58-94) -/

/-- The reader state: the unread bytes of the file, the chunk buffer contents
(bytes past the valid length keep stale values), the cursor cpos, the valid
length blen, and the reof flag the part_001 iteration adds (the yaml.c
iteration has no such field and derives end of file from blen alone). -/
structure CStream where
  fileRest : List Char
  chunk : List Char
  cpos : Nat
  blen : Nat
  reof : Bool
deriving DecidableEq

/-- refill_buffers (src/unnamed/part_001 58-67): read up to the chunk size
csz, overwriting the first n bytes of the buffer (bytes past n keep their
previous, stale values), reset the cursor, record the valid length, and set
reof when the read returned zero bytes.  (The src/src/yaml.c iteration, lines
58-67, performs the same read but records lred instead of reof.) -/
def refill_buffers (csz : Nat) (s : CStream) : CStream :=
  let got := s.fileRest.take csz
  { fileRest := s.fileRest.drop csz,
    chunk := got ++ s.chunk.drop got.length,
    cpos := 0,
    blen := got.length,
    reof := got.length = 0 }

/-- peek_char (lines 70-73 of both iterations): the byte under the cursor,
stale or not. -/
def peek_char (s : CStream) : Char :=
  s.chunk.getD s.cpos (Char.ofNat 0)

/-- eof_reached in the part_001 iteration (lines 80-83): the reof flag. -/
def eof_reached (s : CStream) : Bool := s.reof

/-- eof_reached in the src/src/yaml.c iteration (lines 80-83): the buffer is
nonempty and the cursor has passed its end.  After the final, zero-length
refill sets blen to 0 this is false again. -/
def eof_reached_yamlc (s : CStream) : Bool := decide (0 < s.blen) && decide (s.blen ≤ s.cpos)

/-- skip_char (lines 85-94 of both iterations, the line/column counters
omitted): advance the cursor and refill once it leaves the valid range. -/
def skip_char (csz : Nat) (s : CStream) : CStream :=
  let s' := { s with cpos := s.cpos + 1 }
  if s'.blen ≤ s'.cpos then refill_buffers csz s' else s'

/-- True end of file as the part_001 reader reaches it: the file is exhausted
and the final read returned zero bytes (blen cleared, reof set). -/
def EofState (s : CStream) : Prop :=
  s.fileRest = [] ∧ s.blen = 0 ∧ s.reof = true

instance (s : CStream) : Decidable (EofState s) := by
  unfold EofState
  infer_instance

/-- At end of file a refill reads nothing: the state keeps its (stale) chunk,
stays at end of file, and only the cursor is reset. -/
theorem refill_buffers_eof (csz : Nat) (s : CStream) (h : EofState s) :
    refill_buffers csz s = { s with cpos := 0 } := by
  obtain ⟨hf, hb, hr⟩ := h
  unfold refill_buffers
  simp [hf, hb, hr]

/-- skip_char at end of file refills immediately (the cursor can never stay
within a zero-length valid range) and so preserves the end-of-file state. -/
theorem skip_char_eof (csz : Nat) (s : CStream) (h : EofState s) :
    EofState (skip_char csz s) := by
  obtain ⟨hf, hb, hr⟩ := h
  unfold skip_char refill_buffers
  simp only [hf, hb, hr]
  rw [if_pos (Nat.zero_le _)]
  exact ⟨by simp, by simp, by simp⟩

/-! ### The string arena (src/unnamed/part_001 142-163, with
src/src/libs/z3_toys.h and src/src/libs/z3_string.h) -/

/-- next_power_of2 (src/src/libs/z3_toys.h 88-96) on the 64-bit size_t: the
initial decrement and the final increment wrap (so the result for 0 is 0),
and the shift cascade stops at 16 bits, so the smear - and with it the
next-power-of-two result - is only correct for arguments below 2^32 (every
request made here is far below that). -/
def next_power_of2 (n : Nat) : Nat :=
  let m0 := (n + (2 ^ 64 - 1)) % 2 ^ 64
  let m1 := m0 ||| (m0 >>> 1)
  let m2 := m1 ||| (m1 >>> 2)
  let m3 := m2 ||| (m2 >>> 4)
  let m4 := m3 ||| (m3 >>> 8)
  let m5 := m4 ||| (m4 >>> 16)
  (m5 + 1) % 2 ^ 64

/-- A z3 String (src/src/libs/z3_string.h 26-30) as the arena logic sees it:
allocated capacity and used length. -/
structure ZString where
  max : Nat
  len : Nat
deriving DecidableEq

/-- z3_str (src/src/libs/z3_string.h 135-144): a fresh empty string whose
capacity is next_power_of2 of the requested minimum - NOT the minimum
itself. -/
def z3_str (min : Nat) : ZString :=
  { max := next_power_of2 min, len := 0 }

/-- The string store of the part_001 iteration: the searched list of shared
line buffers (strs) and the list of dedicated big buffers (bigs). -/
structure YamlStore where
  strs : List ZString
  bigs : List ZString
deriving DecidableEq

/-- Which buffer get_string_line returned: an existing shared buffer by
index, a fresh dedicated buffer, or a fresh shared buffer. -/
inductive BufChoice
  | oldSmall (i : Nat)
  | newBig
  | newSmall
deriving DecidableEq

/-- The search loop of get_string_line (src/unnamed/part_001 145-149): index
of the first shared buffer whose free space max - len strictly exceeds
reqsz + 1. -/
def gslFind : List ZString → Nat → Option Nat
  | [], _ => none
  | z :: r, reqsz =>
    if reqsz + 1 < z.max - z.len then some 0
    else (gslFind r reqsz).map (fun i => i + 1)

/-- get_string_line (src/unnamed/part_001 142-163): scan the shared buffers
for the first one with strictly more than reqsz + 1 free bytes; when none
qualifies allocate with z3_str - a dedicated buffer requested at reqsz bytes
(so of capacity next_power_of2 reqsz) pushed to bigs when the request is at
least the base allocation size, else a fresh shared buffer requested at the
base size.  The dedicated (bigs) buffers are never searched.  The define of
STR_ALLOC_SIZE_BASE belongs to the part_001 iteration's own header, which is
not among the repository's files, so that one constant stays the parameter
sb here. -/
def get_string_line (sb : Nat) (store : YamlStore) (reqsz : Nat) :
    BufChoice × YamlStore :=
  match gslFind store.strs reqsz with
  | some i => (.oldSmall i, store)
  | none =>
    if sb ≤ reqsz then
      (.newBig, { store with bigs := store.bigs ++ [z3_str reqsz] })
    else
      (.newSmall, { store with strs := store.strs ++ [z3_str sb] })

/-- The search loop as claim C9 words it, following the spec's words for
comparison with gslFind: remaining slack AT LEAST reqsz + 1. -/
def gslFindSpec : List ZString → Nat → Option Nat
  | [], _ => none
  | z :: r, reqsz =>
    if reqsz + 1 ≤ z.max - z.len then some 0
    else (gslFindSpec r reqsz).map (fun i => i + 1)

/-- get_string_line as claim C9 words it, following the spec's words for
comparison with get_string_line: slack of at least reqsz + 1 qualifies, and
the dedicated buffer is sized EXACTLY reqsz (the code requests reqsz from
z3_str and receives the next power of two). -/
def get_string_line_spec (sb : Nat) (store : YamlStore) (reqsz : Nat) :
    BufChoice × YamlStore :=
  match gslFindSpec store.strs reqsz with
  | some i => (.oldSmall i, store)
  | none =>
    if sb ≤ reqsz then
      (.newBig, { store with bigs := store.bigs ++ [⟨reqsz, 0⟩] })
    else
      (.newSmall, { store with strs := store.strs ++ [⟨sb, 0⟩] })

/-- A successful gslFind result is the least index whose buffer passes the
strict slack test. -/
theorem gslFind_some {l : List ZString} {reqsz i : Nat}
    (h : gslFind l reqsz = some i) :
    ∃ z, l.get? i = some z ∧ reqsz + 1 < z.max - z.len ∧
      ∀ j zj, j < i → l.get? j = some zj → ¬ reqsz + 1 < zj.max - zj.len := by
  induction l generalizing i with
  | nil => cases h
  | cons z r ih =>
    unfold gslFind at h
    by_cases hz : reqsz + 1 < z.max - z.len
    · rw [if_pos hz] at h
      injection h with h
      subst h
      exact ⟨z, rfl, hz, fun j zj hj => absurd hj (Nat.not_lt_zero j)⟩
    · rw [if_neg hz] at h
      rcases hr : gslFind r reqsz with _ | i0
      · rw [hr] at h; cases h
      · rw [hr] at h
        have hi : i = i0 + 1 := by
          simp only [Option.map_some'] at h
          injection h with h
          omega
        subst hi
        rcases ih hr with ⟨z0, hz0, hs0, hleast⟩
        refine ⟨z0, by simpa using hz0, hs0, ?_⟩
        intro j zj hj hgj
        cases j with
        | zero =>
          simp only [List.get?] at hgj
          injection hgj with hgj
          rw [← hgj]
          exact hz
        | succ j0 =>
          exact hleast j0 zj (by omega) (by simpa using hgj)

/-- A failed gslFind means no buffer passes the strict slack test. -/
theorem gslFind_none {l : List ZString} {reqsz : Nat}
    (h : gslFind l reqsz = none) :
    ∀ z ∈ l, ¬ reqsz + 1 < z.max - z.len := by
  induction l with
  | nil => intro z hz; cases hz
  | cons z0 r ih =>
    unfold gslFind at h
    by_cases hz : reqsz + 1 < z0.max - z0.len
    · rw [if_pos hz] at h; cases h
    · rw [if_neg hz] at h
      intro z hzm
      rcases List.mem_cons.mp hzm with heq | hzm2
      · rw [heq]; exact hz
      · rcases hr : gslFind r reqsz with _ | i0
        · exact ih hr z hzm2
        · rw [hr] at h; cases h

/-- First match of mapFindFirst splits the entry list at the first binding of
that key. -/
theorem mapFindFirst_some {l : List (String × Nat)} {k : String} {v : Nat}
    (h : mapFindFirst l k = some v) :
    ∃ l1 l2, l = l1 ++ (k, v) :: l2 ∧ ∀ p ∈ l1, p.1 ≠ k := by
  induction l with
  | nil => cases h
  | cons e r ih =>
    unfold mapFindFirst at h
    by_cases he : e.1 = k
    · rw [if_pos he] at h
      injection h with h
      refine ⟨[], r, ?_, by simp⟩
      rw [← he, ← h]
      simp
    · rw [if_neg he] at h
      rcases ih h with ⟨l1, l2, hsplit, hnone⟩
      refine ⟨e :: l1, l2, by rw [hsplit]; rfl, ?_⟩
      intro p hp
      rcases List.mem_cons.mp hp with heq | hp2
      · rw [heq]; exact he
      · exact hnone p hp2

/-- No match of mapFindFirst means no entry binds the key. -/
theorem mapFindFirst_none {l : List (String × Nat)} {k : String}
    (h : mapFindFirst l k = none) :
    ∀ p ∈ l, p.1 ≠ k := by
  induction l with
  | nil => intro p hp; cases hp
  | cons e r ih =>
    unfold mapFindFirst at h
    by_cases he : e.1 = k
    · rw [if_pos he] at h; cases h
    · rw [if_neg he] at h
      intro p hp
      rcases List.mem_cons.mp hp with heq | hp2
      · rw [heq]; exact he
      · exact ih h p hp2

/-- The exact reference-count arithmetic of a run of child bumps: a live node
gains one reference per occurrence of its id among the bumped values. -/
theorem foldBump_get_count (l : List (String × Nat)) (h : Heap) (v : Nat)
    (dv : NodeData) (hv : h.get v = some dv) :
    (l.foldl (fun hh e => hh.bump e.2) h).get v =
      some { dv with rcount := dv.rcount + (l.map Prod.snd).count v } := by
  induction l generalizing h dv with
  | nil => exact hv
  | cons e r ih =>
    rw [List.foldl_cons]
    by_cases he : e.2 = v
    · have hb : (h.bump e.2).get v = some { dv with rcount := dv.rcount + 1 } := by
        rw [he, Heap.get_bump_self, hv]
        rfl
      have hc : (List.map Prod.snd (e :: r)).count v = (List.map Prod.snd r).count v + 1 := by
        simp [List.count_cons, he]
      rw [ih _ _ hb, hc]
      have harith : dv.rcount + 1 + (List.map Prod.snd r).count v =
          dv.rcount + ((List.map Prod.snd r).count v + 1) := by omega
      rw [harith]
    · have hb : (h.bump e.2).get v = some dv := by
        rw [Heap.get_bump_ne h e.2 v (fun hh => he hh.symm)]
        exact hv
      have hc : (List.map Prod.snd (e :: r)).count v = (List.map Prod.snd r).count v := by
        simp [List.count_cons, he]
      rw [ih _ _ hb, hc]

/-- Observation of a full parse: map_get_node applied to the returned root. -/
def runMapGet (fuel : Nat) (toks : List Token) (key : String) : Option Nat :=
  match parseYamlTok fuel toks with
  | .ok (r, st) => map_get_node st.heap (some r) key
  | .error _ => none

/-- parse_yaml of the part_001 iteration (src/unnamed/part_001 828-925) at
the token interface: the root is chosen by the FIRST token - an open bracket
increments root_mark and parses a sequence root (parse_list, lines 865-868),
an open brace increments root_mark and parses a map root (870-874), a key
backtracks and parses the bare map root (876-890), and anything else
backtracks and parses ONE value as the root (892-907); afterwards the next
token must be EOF (910-921).  The C backtracking (cpos reset and the arena
rollback of 882-904) re-reads the peeked token; on a token stream that is
dispatching on the head without consuming it.  The tree-building loops are
shared with the yaml.c embedding (parseGo); the iterations' loops differ
only in bookkeeping no observation here depends on. -/
def parseYamlTok_p001 (fuel : Nat) (toks : List Token) : Except YErr (Nat × PState) :=
  let st0 : PState :=
    { toks := toks, curToken := { kind := .unknown, raw := "", length := 0 },
      rootMark := 0, aliases := [], heap := {} }
  let tst := nextTokenP st0
  let run : Except YErr (Nat × PState) :=
    match tst.1.kind with
    | .openSeq => parseSeq fuel { tst.2 with rootMark := u16inc tst.2.rootMark }
    | .openMap => parseMap fuel { tst.2 with rootMark := u16inc tst.2.rootMark }
    | .key => parseMap fuel st0
    | _ => parseValue fuel st0
  match run with
  | .error e => .error e
  | .ok (root, st') =>
    if st'.toks = [] then .ok (root, st') else .error .unexpectedToken

/-- Observation of a part_001 parse: the kind of the returned root node. -/
def runRootKind_p001 (fuel : Nat) (toks : List Token) : Option NodeKind :=
  match parseYamlTok_p001 fuel toks with
  | .ok (r, st) => (st.heap.get r).map (fun d => d.kind)
  | .error _ => none

/-! ### Concrete scenarios -/

/-- Tokens of `base: &b {x: 1}` then `child: {<<: *b}`: a merge whose source
map is shared (rcount 1 from the alias dereference). -/
def c1toks : List Token :=
  [keyTok "base", anchorTok "b", openMapTok, keyTok "x", numTok "1", closeMapTok,
   keyTok "child", openMapTok, keyTok "<<", aliasTok "b", closeMapTok]

/-- Tokens of `x: &a 5` then `child: {<<: *a}`: the merge value aliases a
non-map node. -/
def c1badToks : List Token :=
  [keyTok "x", anchorTok "a", numTok "5",
   keyTok "child", openMapTok, keyTok "<<", aliasTok "a", closeMapTok]

/-- Tokens of `x: &n 5` then `y: *n` (the spec's aliasing example). -/
def c2toks : List Token :=
  [keyTok "x", anchorTok "n", numTok "5", keyTok "y", aliasTok "n"]

/-- Tokens of `y: *m` with no prior anchor. -/
def c2badToks : List Token := [keyTok "y", aliasTok "m"]

/-- Tokens of `x: &n 5` then `y: &m &n 1`: the inner anchor &n re-uses a
bound name while anchor &m's value is still being parsed. -/
def c7cexToks : List Token :=
  [keyTok "x", anchorTok "n", numTok "5",
   keyTok "y", anchorTok "m", anchorTok "n", numTok "1"]

/-- Tokens of `x: &n 5`. -/
def c7okToks : List Token := [keyTok "x", anchorTok "n", numTok "5"]

/-- Tokens of `x: 1` then `x: 2` (a duplicate key; this parser retains both
entries). -/
def c10toks : List Token := [keyTok "x", numTok "1", keyTok "x", numTok "2"]

/-- A destination map with one entry. -/
def c1D : NodeData := { kind := .map, entries := [("a", 9)] }

/-- A shared (rcount 1) source map with one entry whose value is node 2. -/
def c1S : NodeData := { kind := .map, rcount := 1, entries := [("x", 2)] }

/-- A concrete heap: destination 0, source 1, the moved entry's value 2. -/
def c1H : Heap := { nodes := [(0, c1D), (1, c1S), (2, { kind := .num })], next := 3 }

/-- A parser state about to dereference *n against a table binding n to
node 0. -/
def stC2 : PState :=
  { toks := [aliasTok "n"], curToken := eofToken, rootMark := 0,
    aliases := [⟨some "n", some 0⟩],
    heap := { nodes := [(0, { kind := NodeKind.num, number := 5 })], next := 1 } }

/-- The final state of parsing an empty token stream: the root map exists and
nothing else. -/
def stC4 : PState :=
  { toks := [], curToken := eofToken, rootMark := 65535, aliases := [],
    heap := { nodes := [(0, { kind := NodeKind.map })], next := 1 } }

/-- A reader that has just seen its final, zero-byte refill while the chunk
still holds the stale bytes ab. -/
def c8S : CStream :=
  { fileRest := [], chunk := ['a', 'b'], cpos := 0, blen := 0, reof := true }

/-- A reader over the two-byte file ab before the first refill (the malloc'd
chunk holds arbitrary bytes, X here). -/
def c8Start : CStream :=
  { fileRest := ['a', 'b'], chunk := ['X', 'X', 'X', 'X'], cpos := 0, blen := 0,
    reof := false }

/-! ### The claims -/

/-- C1 (corrected): after a merge key `<<` the value must be, or alias to, a
map or the parse fails with UNEXPECTED_TOKEN (the concrete run c1badToks);
a map source has every entry appended, in order, to the destination map;
when the source is shared (rcount > 0) each appended entry's value node
gains one reference per moved occurrence and the source's own rcount is
decremented - but the source node SURVIVES even when that decrement reaches
zero; only a source whose rcount was already zero before the merge (an
inline, unanchored map) is freed, and the freed source's moved entries'
value nodes are untouched.  (src/src/yaml.c 643-686.) -/
theorem c1_merge_key_consumption (h : Heap) (dst src : Nat) (s d : NodeData)
    (hs : h.get src = some s) (hd : h.get dst = some d) (hne : dst ≠ src) :
    ((mergeConsume h dst src).get dst =
      some { d with
        rcount := d.rcount +
          (if 0 < s.rcount then (s.entries.map Prod.snd).count dst else 0),
        entries := d.entries ++ s.entries }) ∧
    (0 < s.rcount →
      (∀ v dv, v ≠ dst → v ≠ src → h.get v = some dv →
        (mergeConsume h dst src).get v =
          some { dv with rcount := dv.rcount + (s.entries.map Prod.snd).count v }) ∧
      (mergeConsume h dst src).get src =
        some { s with rcount := s.rcount + (s.entries.map Prod.snd).count src - 1 }) ∧
    (s.rcount = 0 →
      (mergeConsume h dst src).get src = none ∧
      (∀ v dv, v ≠ dst → v ≠ src → h.get v = some dv →
        (mergeConsume h dst src).get v = some dv)) ∧
    runErr 16 c1badToks = some YErr.unexpectedToken := by
  by_cases hrc : 0 < s.rcount
  · have h1d := foldBump_get_count s.entries h dst d hd
    have h1s := foldBump_get_count s.entries h src s hs
    have hmc2 : mergeConsume h dst src =
        ((s.entries.foldl (fun hh e => hh.bump e.2) h).set dst
            { d with
              rcount := d.rcount + (s.entries.map Prod.snd).count dst,
              entries := d.entries ++ s.entries }).set src
          { s with rcount := s.rcount + (s.entries.map Prod.snd).count src - 1 } := by
      unfold mergeConsume
      rw [hs]
      simp only [if_pos hrc]
      rw [h1d]
      dsimp only
      rw [Heap.get_set_ne _ dst src _ (fun hh => hne hh.symm), h1s]
    refine ⟨?_, fun _ => ⟨?_, ?_⟩, fun hz => absurd hz (by omega), by decide⟩
    · rw [hmc2, Heap.get_set_ne _ src dst _ hne, Heap.get_set_self, h1d,
        if_pos hrc]
      rfl
    · intro v dv hvd hvs hv
      rw [hmc2, Heap.get_set_ne _ src v _ hvs, Heap.get_set_ne _ dst v _ hvd]
      exact foldBump_get_count s.entries h v dv hv
    · rw [hmc2, Heap.get_set_self,
        Heap.get_set_ne _ dst src _ (fun hh => hne hh.symm), h1s]
      rfl
  · have hmc2 : mergeConsume h dst src =
        (h.set dst { d with entries := d.entries ++ s.entries }).remove src := by
      unfold mergeConsume
      rw [hs]
      simp only [if_neg hrc]
      rw [hd]
    refine ⟨?_, fun hp => absurd hp hrc, fun _ => ⟨?_, ?_⟩, by decide⟩
    · rw [hmc2, Heap.get_remove_ne _ src dst hne, Heap.get_set_self, hd,
        if_neg hrc]
      rfl
    · rw [hmc2, Heap.get_remove_self]
    · intro v dv hvd hvs hv
      rw [hmc2, Heap.get_remove_ne _ src v hvs, Heap.get_set_ne _ dst v _ hvd, hv]

/-- Witness for C1 at a concrete heap: a shared one-entry source map (node 1)
merged into a one-entry destination (node 0). -/
theorem c1_merge_key_witness :
    ((mergeConsume c1H 0 1).get 0 =
      some { c1D with
        rcount := c1D.rcount +
          (if 0 < c1S.rcount then (c1S.entries.map Prod.snd).count 0 else 0),
        entries := c1D.entries ++ c1S.entries }) ∧
    (0 < c1S.rcount →
      (∀ v dv, v ≠ 0 → v ≠ 1 → c1H.get v = some dv →
        (mergeConsume c1H 0 1).get v =
          some { dv with rcount := dv.rcount + (c1S.entries.map Prod.snd).count v }) ∧
      (mergeConsume c1H 0 1).get 1 =
        some { c1S with rcount := c1S.rcount + (c1S.entries.map Prod.snd).count 1 - 1 }) ∧
    (c1S.rcount = 0 →
      (mergeConsume c1H 0 1).get 1 = none ∧
      (∀ v dv, v ≠ 0 → v ≠ 1 → c1H.get v = some dv →
        (mergeConsume c1H 0 1).get v = some dv)) ∧
    runErr 16 c1badToks = some YErr.unexpectedToken :=
  c1_merge_key_consumption c1H 0 1 c1S c1D rfl rfl (by decide)

/-- Counterexample to C1's freed-on-reaching-zero reading: after
base: &b {x: 1} and child: {<<: *b} the source map (node 1) had rcount 1,
the merge decrements it to 0, and the node is STILL allocated; its moved
entry's value node (node 2) lives on with a bumped rcount. -/
theorem c1_source_not_freed :
    runHeapGet 16 c1toks 1 =
      some { kind := NodeKind.map, rcount := 0, entries := [("x", 2)] } ∧
    runHeapGet 16 c1toks 2 =
      some { kind := NodeKind.num, rcount := 1, number := 1 } := by decide

/-- C2 (confirmed): dereferencing an alias looks the name up in the alias
table; an unknown name is fatal (UNDEFINED_ALIAS), a known one returns the
very node id the anchor bound (pointer identity) after incrementing that
node's reference count, so the shared node's rcount afterwards is at least 1.
Concretely, parsing x: &n 5 then y: *n binds both keys to the same node,
whose rcount ends at 1.  (src/src/yaml.c 745-752.) -/
theorem c2_alias_dereference (fuel : Nat) (st : PState) (nm : String) (r : List Token)
    (hts : st.toks = aliasTok nm :: r) :
    (∀ v, parse_alias st.aliases nm = some v →
      parseGo (fuel + 1) PMode.value st =
        Except.ok (v, { st with
          toks := r, curToken := aliasTok nm, heap := st.heap.bump v })) ∧
    (∀ v dv, st.heap.get v = some dv →
      (st.heap.bump v).get v = some { dv with rcount := dv.rcount + 1 }) ∧
    (parse_alias st.aliases nm = none →
      parseGo (fuel + 1) PMode.value st = Except.error YErr.undefinedAlias) ∧
    runRootEntries 16 c2toks = some [("x", 1), ("y", 1)] ∧
    runHeapGet 16 c2toks 1 = some { kind := NodeKind.num, rcount := 1, number := 5 } ∧
    runErr 16 c2badToks = some YErr.undefinedAlias := by
  refine ⟨?_, ?_, ?_, by decide, by decide, by decide⟩
  · intro v hv
    unfold parseGo
    rw [nextTokenP_cons st (aliasTok nm) r hts (by simp [aliasTok])]
    dsimp only [aliasTok]
    rw [hv]
  · intro v dv hdv
    rw [Heap.get_bump_self, hdv]
    rfl
  · intro hv
    unfold parseGo
    rw [nextTokenP_cons st (aliasTok nm) r hts (by simp [aliasTok])]
    dsimp only [aliasTok]
    rw [hv]

/-- Witness for C2 at a concrete state: *n resolves to node 0 and the parse
returns exactly that id with its rcount bumped. -/
theorem c2_alias_witness :
    parseGo 4 PMode.value stC2 =
      Except.ok (0, { stC2 with
        toks := [], curToken := aliasTok "n", heap := stC2.heap.bump 0 }) :=
  (c2_alias_dereference 3 stC2 "n" [] rfl).1 0 rfl

/-- C3 (code bug): parse_number assembles the separator-stripped copy
ver_value but hands the RAW token text to strtod and frees the copy unused
(src/src/yaml.c 545-564), so interior underscores are NOT stripped:
1_000_000 converts as its longest valid prefix, 1, while 1000000 converts to
1000000; under the spec-worded conversion (parse_number_spec) the two are
equal. -/
theorem c3_underscore_not_stripped :
    (parse_number (numTok "1_000_000")).number = 1 ∧
    (parse_number (numTok "1000000")).number = 1000000 ∧
    parse_number (numTok "1_000_000") ≠ parse_number (numTok "1000000") ∧
    (parse_number_spec (numTok "1_000_000")).number = 1000000 ∧
    parse_number_spec (numTok "1_000_000") = parse_number_spec (numTok "1000000") := by
  decide

/-- C4 (corrected): in the src/src/yaml.c iteration every successful parse
returns a root that is a Map node - parse_yaml (796-831) unconditionally
builds the root with parse_map, and the map node parse_map allocates is
still a NODE_MAP in the final heap.  In the part_001 iteration parse_yaml
(828-925) instead dispatches on the first token, so only key- and
open-brace-headed documents get a Map root (the two concrete runs); bracket
documents get a Sequence root and other documents the parsed scalar node
itself (the counterexample). -/
theorem c4_root_is_map (fuel : Nat) (toks : List Token) (root : Nat) (st' : PState)
    (hok : parseYamlTok fuel toks = Except.ok (root, st')) :
    (∃ d, st'.heap.get root = some d ∧ d.kind = NodeKind.map) ∧
    runRootKind_p001 8 [keyTok "a", numTok "1"] = some NodeKind.map ∧
    runRootKind_p001 8 [openMapTok, keyTok "x", numTok "1", closeMapTok] =
      some NodeKind.map := by
  refine ⟨?_, by decide, by decide⟩
  unfold parseYamlTok at hok
  dsimp only at hok
  rcases hpm : parseMap fuel
      { toks := toks, curToken := { kind := .unknown, raw := "", length := 0 },
        rootMark := 0, aliases := [], heap := {} } with e | ⟨r1, st1⟩
  · rw [hpm] at hok
    cases hok
  · rw [hpm] at hok
    dsimp only at hok
    by_cases hts : st1.toks = []
    · rw [if_pos hts] at hok
      have hr : r1 = root := congrArg Prod.fst (Except.ok.inj hok)
      have hst : st1 = st' := congrArg Prod.snd (Except.ok.inj hok)
      subst hr
      subst hst
      unfold parseMap parseMapLoop at hpm
      dsimp only at hpm
      have hpm2 : parseGo fuel (PMode.mapLoop 0)
          { toks := toks, curToken := { kind := .unknown, raw := "", length := 0 },
            rootMark := 0, aliases := [],
            heap := { nodes := [(0, { kind := NodeKind.map })], next := 1 } } =
          Except.ok (r1, st1) := hpm
      have hwf : ({ nodes := [(0, { kind := NodeKind.map })], next := 1 } : Heap).WF :=
        ⟨by decide, by decide⟩
      have hrm : (0 : Nat) < 65536 := by decide
      obtain ⟨-, -, -, hconc⟩ := parseGo_sound fuel _ _ _ _ hpm2 ⟨hwf, hrm⟩
      simp only [parseConc] at hconc
      have hget0 : ({ nodes := [(0, { kind := NodeKind.map })], next := 1 } : Heap).get 0 =
          some { kind := NodeKind.map } := by decide
      obtain ⟨hroot, -, hB4, -⟩ := hconc (by
        show (({ nodes := [(0, { kind := NodeKind.map })], next := 1 } : Heap).get 0).isSome = true
        rw [hget0]
        rfl)
      rcases hB4 { kind := .map } hget0 with ⟨rc, ext, hget⟩
      subst hroot
      exact ⟨_, hget, rfl⟩
    · rw [if_neg hts] at hok
      cases hok

/-- Witness for C4: the empty token stream parses to a bare root map. -/
theorem c4_root_witness :
    parseYamlTok 2 [] = Except.ok (0, stC4) ∧
    ((∃ d, stC4.heap.get 0 = some d ∧ d.kind = NodeKind.map) ∧
     runRootKind_p001 8 [keyTok "a", numTok "1"] = some NodeKind.map ∧
     runRootKind_p001 8 [openMapTok, keyTok "x", numTok "1", closeMapTok] =
       some NodeKind.map) := by
  have hok : parseYamlTok 2 [] = Except.ok (0, stC4) := rfl
  exact ⟨hok, c4_root_is_map 2 [] 0 stC4 hok⟩

/-- Counterexample to C4 in the part_001 iteration: the bracket document
[1] parses successfully with a Sequence root, and the document 5 with a
Number root - neither root is a Map node. -/
theorem c4_scalar_root_cex :
    runRootKind_p001 8 [openSeqTok, numTok "1", closeSeqTok] = some NodeKind.seq ∧
    runRootKind_p001 8 [numTok "5"] = some NodeKind.num := by decide

set_option maxRecDepth 16384 in
/-- C5 (corrected): a token with a leading digit, dot, minus or plus runs
the number scan, which consumes exactly digits, dots, minus and plus signs -
underscores and exponent markers are NOT in the scan set (is_number_parseable,
src/src/yaml.c 33); a NUMBER token is emitted only when the byte after the
scan is a space, newline, comma, close brace, close bracket or end of file.
Otherwise, in src/src/yaml.c, the input is re-read as a key from the CURRENT
position, and the key token holds the chunks the scan flushed to the arena
(one full 256-byte stack buffer at a time, lines 262-264) followed by what
try_key collects - for scans of at most 256 bytes nothing was flushed and
the key is exactly the unscanned tail, never the full original text; the
last conjunct exhibits a 257-byte scan whose first 256 bytes do prefix the
key.  In the part_001 iteration a failed scan is instead fatal: next_token
casts the -1 to uint32 and try_key's length check dies with KEY_TOO_LONG
(lines 435-457, 341-342).  (try_number 257-279, next_token 406-426.) -/
theorem c5_number_or_key_scan (c : Char) (cs : List Char)
    (h : is_number_parseable c = true) :
    (try_number (c :: cs)).2.1 ++ (try_number (c :: cs)).2.2.1 =
      (c :: cs).takeWhile is_number_parseable ∧
    (try_number (c :: cs)).2.2.2 = (c :: cs).dropWhile is_number_parseable ∧
    (try_number (c :: cs)).1 =
      (match (c :: cs).dropWhile is_number_parseable with
       | [] => true
       | c2 :: _ => is_valid_delim c2) ∧
    (((c :: cs).takeWhile is_number_parseable).length ≤ 256 →
      (try_number (c :: cs)).2.1 = []) ∧
    ((try_number (c :: cs)).1 = true →
      lexNumberOrKey (c :: cs) =
        ({ kind := TokenKind.number,
           raw := String.mk ((c :: cs).takeWhile is_number_parseable),
           length := ((c :: cs).takeWhile is_number_parseable).length },
         (c :: cs).dropWhile is_number_parseable)) ∧
    ((try_number (c :: cs)).1 = false →
      lexNumberOrKey (c :: cs) =
        ({ kind := TokenKind.key,
           raw := String.mk ((try_number (c :: cs)).2.1 ++
             (try_key ((try_number (c :: cs)).2.2.2)).1),
           length := ((try_number (c :: cs)).2.1 ++
             (try_key ((try_number (c :: cs)).2.2.2)).1).length },
         (try_key ((try_number (c :: cs)).2.2.2)).2)) ∧
    (∀ maxNum sb, ((c :: cs).takeWhile is_number_parseable).length ≤ maxNum →
      (try_number (c :: cs)).1 = false →
      lexNumberOrKey_p001 maxNum sb (c :: cs) = Except.error YErr.keyTooLong) ∧
    lexNumberOrKey (List.replicate 257 '1' ++ ['a']) =
      ({ kind := TokenKind.key,
         raw := String.mk (List.replicate 256 '1' ++ ['a']),
         length := 257 }, []) := by
  obtain ⟨h1, h2, h3⟩ := try_number_go_eq (c :: cs) [] []
  have h1' : (try_number (c :: cs)).1 =
      (match (c :: cs).dropWhile is_number_parseable with
       | [] => true
       | c2 :: _ => is_valid_delim c2) := h1
  have h2' : (try_number (c :: cs)).2.1 ++ (try_number (c :: cs)).2.2.1 =
      (c :: cs).takeWhile is_number_parseable := by simpa using h2
  have h3' : (try_number (c :: cs)).2.2.2 = (c :: cs).dropWhile is_number_parseable := h3
  refine ⟨h2', h3', h1', ?_, ?_, ?_, ?_, by decide⟩
  · intro hlen
    exact try_number_go_no_flush (c :: cs) [] [] (by simpa using hlen)
  · intro htrue
    rcases htn : try_number (c :: cs) with ⟨b, fl, pe, rest⟩
    rw [htn] at htrue h2' h3'
    simp only at htrue
    subst htrue
    simp only at h2' h3'
    dsimp only [lexNumberOrKey]
    rw [if_pos h, htn]
    dsimp only
    rw [h2', h3']
  · intro hfalse
    rcases htn : try_number (c :: cs) with ⟨b, fl, pe, rest⟩
    rw [htn] at hfalse
    simp only at hfalse
    subst hfalse
    dsimp only [lexNumberOrKey]
    rw [if_pos h, htn]
  · intro maxNum sb hlen hfalse
    have hb : (match (c :: cs).dropWhile is_number_parseable with
               | [] => true
               | c2 :: _ => is_valid_delim c2) = false := by
      rw [← h1']
      exact hfalse
    dsimp only [lexNumberOrKey_p001]
    rw [if_pos h, try_number_p001_ok (c :: cs) maxNum 0 (by simpa using hlen), hb]

/-- Witness for C5: lexing 12-space emits the number token 12. -/
theorem c5_scan_witness :
    is_number_parseable '1' = true ∧
    lexNumberOrKey ['1', '2', ' '] =
      ({ kind := TokenKind.number, raw := "12", length := 2 }, [' ']) := by
  refine ⟨by decide, ?_⟩
  have h5 := (c5_number_or_key_scan '1' ['2', ' '] (by decide)).2.2.2.2.1 (by decide)
  rw [h5]
  decide

/-- Counterexample to C5's scan set and full-text re-lex: on 1_0-space the
code stops the scan at the underscore, fails the delimiter test and lexes the
key from the underscore on (dropping the 1), while the claim's wording
(lexNumberOrKeySpec) scans through the underscore and emits the number
1_0. -/
theorem c5_underscore_key_cex :
    lexNumberOrKey ['1', '_', '0', ' '] =
      ({ kind := TokenKind.key, raw := "_0 ", length := 3 }, []) ∧
    lexNumberOrKeySpec ['1', '_', '0', ' '] =
      ({ kind := TokenKind.number, raw := "1_0", length := 3 }, [' ']) := by
  decide

/-- C6 (confirmed): root_mark is incremented entering a brace-delimited map
(parse_value, src/src/yaml.c 772) and decremented on leaving the entry loop
(parse_map 705); at nesting zero (the bare top-level map) a comma separator
is UNEXPECTED_TOKEN while plain juxtaposition parses, and at positive
nesting a second entry without a preceding comma is UNEXPECTED_TOKEN while
the comma'd form parses. -/
theorem c6_comma_governance :
    (∀ fuel st, (nextTokenP st).1.kind = TokenKind.openMap →
      parseGo (fuel + 1) PMode.value st =
        parseGo fuel
          (PMode.mapLoop ((nextTokenP st).2.heap.alloc { kind := NodeKind.map }).1)
          { (nextTokenP st).2 with
            rootMark := u16inc (nextTokenP st).2.rootMark,
            heap := ((nextTokenP st).2.heap.alloc { kind := NodeKind.map }).2 }) ∧
    (∀ fuel st dst r st', parseGo fuel (PMode.mapLoop dst) st = Except.ok (r, st') →
      Stok st → (st.heap.get dst).isSome → st'.rootMark = u16dec st.rootMark) ∧
    runErr 8 [keyTok "x", numTok "1", commaTok, keyTok "y", numTok "2"] =
      some YErr.unexpectedToken ∧
    runRootEntries 8 [keyTok "x", numTok "1", keyTok "y", numTok "2"] =
      some [("x", 1), ("y", 2)] ∧
    runRootEntries 12 [keyTok "m", openMapTok, keyTok "x", numTok "1", commaTok,
      keyTok "y", numTok "2", closeMapTok] = some [("m", 1)] ∧
    runErr 12 [keyTok "m", openMapTok, keyTok "x", numTok "1", keyTok "y",
      numTok "2", closeMapTok] = some YErr.unexpectedToken := by
  refine ⟨?_, ?_, by decide, by decide, by decide, by decide⟩
  · intro fuel st hb
    rcases htk : nextTokenP st with ⟨t, st0⟩
    rw [htk] at hb
    dsimp only at hb
    obtain ⟨tk, raw, len⟩ := t
    dsimp only at hb
    subst hb
    dsimp only
    conv_lhs => unfold parseGo
    rw [htk]
  · intro fuel st dst r st' hok hst hd
    obtain ⟨-, -, -, hconc⟩ := parseGo_sound fuel (PMode.mapLoop dst) st r st' hok hst
    simp only [parseConc] at hconc
    exact (hconc hd).2.2.2

/-- C7 (corrected): an anchor whose name is already bound in the alias table
is fatal (REDEFINED_ALIAS) when it is reached with no other anchor's value in
flight; a successful anchor appends its (name, value) pair, and across every
successful parse step the alias table only ever grows by appended entries -
entries are never removed.  The correction: while an anchored value is being
parsed (the table's reserved slot is last), ANY further anchor - bound or
not - is rejected as UNEXPECTED_TOKEN before the name is even looked up, so
an already-bound name need not end in REDEFINED_ALIAS (see the
counterexample) and a fresh nested name is rejected rather than appended
(the last concrete run).  (src/src/yaml.c 713-743.) -/
theorem c7_anchor_binding :
    (∀ fuel st nm r, st.toks = anchorTok nm :: r →
      anchorGuard st.aliases = false →
      (parse_alias st.aliases nm).isSome →
      parseGo (fuel + 1) PMode.value st = Except.error YErr.redefinedAlias) ∧
    (∀ fuel mode st r st', parseGo fuel mode st = Except.ok (r, st') →
      Stok st → ∃ ext, st'.aliases = st.aliases ++ ext) ∧
    runAliases 8 c7okToks = some [⟨some "n", some 1⟩] ∧
    runErr 8 [keyTok "k", anchorTok "a", anchorTok "b", numTok "1"] =
      some YErr.unexpectedToken := by
  refine ⟨?_, ?_, by decide, by decide⟩
  · intro fuel st nm r hts hg hsome
    unfold parseGo
    rw [nextTokenP_cons st (anchorTok nm) r hts (by simp [anchorTok])]
    dsimp only [anchorTok]
    rw [if_neg (by simp [hg]), if_pos hsome]
  · intro fuel mode st r st' hok hst
    exact (parseGo_sound fuel mode st r st' hok hst).2.2.1.1

/-- Counterexample to C7's if-and-only-if: in x: &n 5 then y: &m &n 1 the
name n IS already bound when &n is reached, yet the parse terminates with
UNEXPECTED_TOKEN (the in-flight-anchor guard fires first), not
REDEFINED_ALIAS. -/
theorem c7_guard_cex :
    runErr 16 c7cexToks = some YErr.unexpectedToken ∧
    runErr 16 c7cexToks ≠ some YErr.redefinedAlias := by decide

/-- C8 (corrected): in the part_001 iteration, once true end of file is
reached (the final read returned zero bytes and set reof) the reader stays at
end of file forever: every further skip_char refills zero bytes and preserves
the end-of-file state, and eof_reached keeps answering true, so every
further next_token call takes its EOF fast path.  The corrections: the byte a
read yields there (peek_char) is NOT a designated EOF sentinel - it is the
stale first byte of the last non-empty chunk, and the callers must (and do)
guard every read with eof_reached; and the first-iteration eof_reached of
src/src/yaml.c, computed from blen alone, stops reporting end of file
altogether once the final refill clears blen (both in the counterexample). -/
theorem c8_eof_persists (csz : Nat) (s : CStream) (h : EofState s) :
    eof_reached s = true ∧
    ∀ k, EofState ((skip_char csz)^[k] s) ∧
      eof_reached ((skip_char csz)^[k] s) = true := by
  refine ⟨h.2.2, ?_⟩
  intro k
  induction k with
  | zero => exact ⟨h, h.2.2⟩
  | succ n ihn =>
    rw [Function.iterate_succ_apply']
    have h2 := skip_char_eof csz _ ihn.1
    exact ⟨h2, h2.2.2⟩

/-- Witness for C8 at a concrete post-EOF reader state. -/
theorem c8_eof_witness :
    eof_reached c8S = true ∧
    ∀ k, EofState ((skip_char 4)^[k] c8S) ∧
      eof_reached ((skip_char 4)^[k] c8S) = true :=
  c8_eof_persists 4 c8S ⟨rfl, rfl, rfl⟩

/-- Counterexample to C8's sentinel-byte reading: consuming the two-byte file
ab to its end leaves the part_001 reader at end of file, yet peek_char
returns the stale byte a, not the 0 sentinel; and the blen-based eof_reached
of src/src/yaml.c answers false there. -/
theorem c8_stale_peek_cex :
    eof_reached (skip_char 4 (skip_char 4 (refill_buffers 4 c8Start))) = true ∧
    peek_char (skip_char 4 (skip_char 4 (refill_buffers 4 c8Start))) = 'a' ∧
    ¬ peek_char (skip_char 4 (skip_char 4 (refill_buffers 4 c8Start))) = Char.ofNat 0 ∧
    eof_reached_yamlc (skip_char 4 (skip_char 4 (refill_buffers 4 c8Start))) = false := by
  decide

/-- C9 (corrected): get_string_line returns the FIRST existing shared buffer
whose slack passes the test, but the test is strict - the free space
max - len must exceed reqsz + 1, i.e. be at least reqsz + 2, not the claimed
at-least-reqsz+1 (src/unnamed/part_001 147, and the counterexample); when no
shared buffer qualifies, a request of at least the base allocation size gets
a dedicated buffer allocated by z3_str at reqsz - its real capacity is
next_power_of2 reqsz (src/src/libs/z3_string.h 135-144), not exactly reqsz -
and a smaller request gets a fresh shared buffer requested at the base size.
The dedicated (bigs) buffers are never searched. -/
theorem c9_arena_first_fit (sb : Nat) (store : YamlStore) (reqsz : Nat) :
    (∀ i, gslFind store.strs reqsz = some i →
      get_string_line sb store reqsz = (BufChoice.oldSmall i, store) ∧
      ∃ z, store.strs.get? i = some z ∧ reqsz + 1 < z.max - z.len ∧
        ∀ j zj, j < i → store.strs.get? j = some zj →
          ¬ reqsz + 1 < zj.max - zj.len) ∧
    (gslFind store.strs reqsz = none →
      (∀ z ∈ store.strs, ¬ reqsz + 1 < z.max - z.len) ∧
      (sb ≤ reqsz →
        get_string_line sb store reqsz =
          (BufChoice.newBig, { store with bigs := store.bigs ++
            [{ max := next_power_of2 reqsz, len := 0 }] })) ∧
      (reqsz < sb →
        get_string_line sb store reqsz =
          (BufChoice.newSmall, { store with strs := store.strs ++
            [{ max := next_power_of2 sb, len := 0 }] }))) := by
  constructor
  · intro i hi
    refine ⟨?_, gslFind_some hi⟩
    unfold get_string_line
    rw [hi]
  · intro hn
    refine ⟨gslFind_none hn, ?_, ?_⟩
    · intro hbig
      unfold get_string_line
      rw [hn, if_pos hbig]
      rfl
    · intro hsmall
      unfold get_string_line
      rw [hn, if_neg (by omega)]
      rfl

/-- Counterexample to C9's slack test and exact-capacity clause: a buffer
with slack exactly reqsz + 1 (capacity 10, length 5, request 4) is returned
under the claim's wording (gslFindSpec / get_string_line_spec) but rejected
by the code, which allocates a fresh base-size buffer instead; and a
dedicated buffer for a 5000-byte request has capacity 8192 (the next power
of two), not exactly 5000 as claimed. -/
theorem c9_slack_off_by_one_cex :
    gslFind [⟨10, 5⟩] 4 = none ∧
    gslFindSpec [⟨10, 5⟩] 4 = some 0 ∧
    get_string_line 8 ⟨[⟨10, 5⟩], []⟩ 4 =
      (BufChoice.newSmall, ⟨[⟨10, 5⟩, ⟨8, 0⟩], []⟩) ∧
    get_string_line_spec 8 ⟨[⟨10, 5⟩], []⟩ 4 =
      (BufChoice.oldSmall 0, ⟨[⟨10, 5⟩], []⟩) ∧
    get_string_line 8 ⟨[], []⟩ 5000 = (BufChoice.newBig, ⟨[], [⟨8192, 0⟩]⟩) ∧
    get_string_line_spec 8 ⟨[], []⟩ 5000 =
      (BufChoice.newBig, ⟨[], [⟨5000, 0⟩]⟩) := by decide

/-- C10 (confirmed): map_get_node of a null node or of a non-map node is
null; on a map node it returns the value of the first entry, in insertion
order, whose key compares equal, and null when none matches - so with
duplicate keys retained, lookup observes the first-inserted binding
(concretely: x: 1 then x: 2 keeps both entries and lookup of x returns the
first value).  (src/src/yaml.c 833-846.) -/
theorem c10_first_match_lookup (h : Heap) (i : Nat) (d : NodeData) (key : String) :
    map_get_node h none key = none ∧
    (h.get i = some d → d.kind ≠ NodeKind.map →
      map_get_node h (some i) key = none) ∧
    (h.get i = some d → d.kind = NodeKind.map →
      (∀ v, map_get_node h (some i) key = some v →
        ∃ l1 l2, d.entries = l1 ++ (key, v) :: l2 ∧ ∀ p ∈ l1, p.1 ≠ key) ∧
      (map_get_node h (some i) key = none → ∀ p ∈ d.entries, p.1 ≠ key)) ∧
    runRootEntries 8 c10toks = some [("x", 1), ("x", 2)] ∧
    runMapGet 8 c10toks "x" = some 1 := by
  refine ⟨rfl, ?_, ?_, by decide, by decide⟩
  · intro hg hk
    unfold map_get_node
    dsimp only
    rw [hg]
    dsimp only
    rw [if_pos hk]
  · intro hg hk
    constructor
    · intro v hv
      unfold map_get_node at hv
      dsimp only at hv
      rw [hg] at hv
      dsimp only at hv
      rw [if_neg (not_not_intro hk)] at hv
      exact mapFindFirst_some hv
    · intro hv
      unfold map_get_node at hv
      dsimp only at hv
      rw [hg] at hv
      dsimp only at hv
      rw [if_neg (not_not_intro hk)] at hv
      exact mapFindFirst_none hv

end Anvil
